import Mathlib

/-!
OCCA bilinear form: dof map, constrained operator, restriction/prolongation.

A shallow embedding of `src/fem/obilinearform.cpp` and `src/fem/ointerpolation.cpp`.

Conventions of the embedding:

* a C `int` array is a `List Nat`; a read `a[i]` is `a.getD i 0` and a write
  `a[i] = v` is `a.set i v`.  Sizes and indices are natural numbers: the index
  type of the source (`int`) is not wrapped, because the connectivity table the
  code receives is itself indexed by `int`;
* a device vector of scalars (`OccaVector`) is a `List Int` (exact arithmetic);
* a `for` loop is a left fold over the list of values its counter takes.
-/

namespace mfem

/-! ## Dof map construction (`OccaBilinearForm::SetupIntegratorData`) -/

/-- The local reordering map of lines 81-90: the dof map of the tensor-product
element when the dynamic cast succeeds (`some m`), the identity on
`[0, localDofs)` otherwise. -/
def selectDofMap (el : Option (List Nat)) (localDofs : Nat) : List Nat :=
  match el with
  | some m => m
  | none => (List.range localDofs).foldl (fun m i => m.set i i) (List.replicate localDofs 0)

/-- Lines 92 and 97-99: the freshly allocated `offsets` array with every entry
of `[0, numDofs]` set to zero. -/
def zeroOffsets (numDofs : Nat) : List Nat :=
  (List.range (numDofs + 1)).foldl (fun offs i => offs.set i 0) (List.replicate (numDofs + 1) 0)

/-- Lines 101-106: count, in `offsets[gid + 1]`, how many local nodes point to
the global dof `gid`. -/
def countPass (elementMap : List Nat) (elements localDofs : Nat) (offsets : List Nat) :
    List Nat :=
  (List.range elements).foldl (fun offs e =>
    (List.range localDofs).foldl (fun offs d =>
      let gid := elementMap.getD (localDofs * e + d) 0
      offs.set (gid + 1) (offs.getD (gid + 1) 0 + 1)) offs) offsets

/-- Lines 108-110: in-place prefix sum, `offsets[i] += offsets[i - 1]` for
`i = 1, ..., numDofs`. -/
def aggregate (numDofs : Nat) (offsets : List Nat) : List Nat :=
  (List.range' 1 numDofs).foldl (fun offs i =>
    offs.set i (offs.getD i 0 + offs.getD (i - 1) 0)) offsets

/-- Lines 113-119: for each global dof, fill in the local nodes that point to
it, `indices[offsets[gid]++] = lid`.  The state is the pair
`(offsets, indices)`. -/
def fillPass (elementMap dofMap : List Nat) (elements localDofs : Nat)
    (st : List Nat × List Nat) : List Nat × List Nat :=
  (List.range elements).foldl (fun st e =>
    (List.range localDofs).foldl (fun st d =>
      let gid := elementMap.getD (localDofs * e + dofMap.getD d 0) 0
      let lid := localDofs * e + d
      (st.1.set gid (st.1.getD gid 0 + 1), st.2.set (st.1.getD gid 0) lid)) st) st

/-- Lines 122-125: shift the offsets back by one position,
`offsets[i] = offsets[i - 1]` for `i = numDofs, ..., 1`, then `offsets[0] = 0`. -/
def shiftBack (numDofs : Nat) (offsets : List Nat) : List Nat :=
  ((List.range' 1 numDofs).reverse.foldl (fun offs i =>
    offs.set i (offs.getD (i - 1) 0)) offsets).set 0 0

/-- What `SetupIntegratorData` leaves in the form: the two device arrays and the
size of the local scratch vector. -/
structure IntegratorData where
  globalToLocalOffsets : List Nat
  globalToLocalIndices : List Nat
  localXSize : Nat
  deriving DecidableEq

/-- `OccaBilinearForm::SetupIntegratorData` (lines 71-142).  `elementMap` is the
`J` array of the element-to-dof table, `el` the dof map of the tensor-product
element when the cast of line 73 succeeds. -/
def SetupIntegratorData (elementMap : List Nat) (el : Option (List Nat))
    (elements numDofs localDofs : Nat) : IntegratorData :=
  let dofMap := selectDofMap el localDofs
  let offsets := zeroOffsets numDofs
  let indices := List.replicate (elements * localDofs) 0
  let offsets := countPass elementMap elements localDofs offsets
  let offsets := aggregate numDofs offsets
  let st := fillPass elementMap dofMap elements localDofs (offsets, indices)
  let offsets := shiftBack numDofs st.1
  { globalToLocalOffsets := offsets
    globalToLocalIndices := st.2
    localXSize := elements * localDofs }

/-! ## Specification vocabulary for the dof map -/

/-- The global dof read in the counting pass for the flat local index `i`. -/
def countKey (elementMap : List Nat) (i : Nat) : Nat :=
  elementMap.getD i 0

/-- The global dof under which the fill pass files the flat local index
`i = localDofs * e + d`, namely `elementMap[localDofs * e + dofMap[d]]`. -/
def fillKey (elementMap dofMap : List Nat) (localDofs i : Nat) : Nat :=
  elementMap.getD (localDofs * (i / localDofs) + dofMap.getD (i % localDofs) 0) 0

/-- Number of flat indices below `n` whose key is below `g`. -/
def startOf (key : Nat → Nat) (n g : Nat) : Nat :=
  (List.range n).countP (fun i => decide (key i < g))

/-- Number of flat indices below `n` whose key is `g`. -/
def multiplicity (key : Nat → Nat) (n g : Nat) : Nat :=
  (List.range n).countP (fun i => decide (key i = g))

/-- The flat indices below `n` whose key is `g`, in ascending order. -/
def bucket (key : Nat → Nat) (n g : Nat) : List Nat :=
  (List.range n).filter (fun i => decide (key i = g))

/-! ## Gather and scatter (`VectorExtract`, `VectorAssemble`, `Mult`) -/

/-- Modelled from the spec: the `VectorExtract` kernel of
`occa://mfem/linalg/mappings.okl`, which is not part of the sources at hand.  Section
4.2: for every global dof `g`, copy `global[g]` into `local[i]` for every `i` in
`indices[offsets[g] : offsets[g+1]]`. -/
def vectorExtractKernel (numDofs : Nat) (offsets indices : List Nat)
    (globalVec localVec : List Int) : List Int :=
  (List.range numDofs).foldl (fun loc g =>
    (List.range' (offsets.getD g 0) (offsets.getD (g + 1) 0 - offsets.getD g 0)).foldl
      (fun loc p => loc.set (indices.getD p 0) (globalVec.getD g 0)) loc) localVec

/-- Modelled from the spec: the `VectorAssemble` kernel of
`occa://mfem/linalg/mappings.okl`, which is not part of the sources at hand.  Section
4.2: for every global dof `g`, set `global[g]` to the sum of `local[i]` over the same
index range. -/
def vectorAssembleKernel (numDofs : Nat) (offsets indices : List Nat)
    (localVec globalVec : List Int) : List Int :=
  (List.range numDofs).foldl (fun glob g =>
    glob.set g
      ((List.range' (offsets.getD g 0) (offsets.getD (g + 1) 0 - offsets.getD g 0)).foldl
        (fun acc p => acc + localVec.getD (indices.getD p 0) 0) 0)) globalVec

/-! ## Constrained operator (`OccaConstrainedOperator`) -/

/-- The `Operator` interface as the code uses it: dimensions and the two applies,
`Mult(x, y)` as `y := Mult x`. -/
structure Operator where
  height : Nat
  width : Nat
  Mult : List Int → List Int
  MultTranspose : List Int → List Int

/-- Modelled from the spec: the kernel that `makeCustomBuilder` (not part of the
sources at hand) makes of the body `const int idx = v2[i]; v0[idx] = v1[idx];`
(lines 343-347), run for every `i < entries`: copy `v0[c] := v1[c]` for each
constrained index `c`.  Returns the new `v0`. -/
def map_dofs (entries : Nat) (v0 v1 : List Int) (v2 : List Nat) : List Int :=
  (List.range entries).foldl (fun v0 i =>
    let idx := v2.getD i 0
    v0.set idx (v1.getD idx 0)) v0

/-- Modelled from the spec: the kernel that `makeCustomBuilder` (not part of the
sources at hand) makes of the body `v0[v1[i]] = 0.0;` (lines 349-352), run for
every `i < entries`: zero `v0[c]` for each constrained index `c`.  Returns the new
`v0`. -/
def clear_dofs (entries : Nat) (v0 : List Int) (v1 : List Nat) : List Int :=
  (List.range entries).foldl (fun v0 i => v0.set (v1.getD i 0) 0) v0

/-- Modelled from the spec: `b -= z` on device vectors (the vector class is not part
of the sources at hand), `b := b - z` entry by entry over the entries of `b`. -/
def subAssign (b z : List Int) : List Int :=
  (List.range b.length).map (fun i => b.getD i 0 - z.getD i 0)

/-- Modelled from the spec: `w = 0.0` on a device vector (the vector class is not
part of the sources at hand), every entry of `w` set to zero. -/
def assignZero (w : List Int) : List Int :=
  List.replicate w.length 0

/-- State of an `OccaConstrainedOperator`: the inner operator, the constraint list
with its length, and the two scratch vectors. -/
structure OccaConstrainedOperator where
  A : Operator
  height : Nat
  width : Nat
  constraint_indices : Nat
  constraint_list : List Nat
  z : List Int
  w : List Int

/-- `OccaConstrainedOperator::setup` after the base-class initialiser
`Operator(A_->Height(), A_->Width())` (lines 354-386).  The device copy of the
constraint list is made only when the list is not empty; the scratch vectors get
`height` entries. -/
def OccaConstrainedOperator.setup (A_ : Operator) (constraint_list_ : List Nat) :
    OccaConstrainedOperator :=
  { A := A_
    height := A_.height
    width := A_.width
    constraint_indices := constraint_list_.length
    constraint_list := if constraint_list_.length ≠ 0 then constraint_list_ else []
    z := List.replicate A_.height 0
    w := List.replicate A_.height 0 }

/-- The vectors a call of the constrained operator can see, as they are when the call
returns: the read-only argument `x`, the in/out argument (`b` of `EliminateRHS`, `y`
of `Mult`) and the two scratch vectors. -/
structure ConstrainedBuffers where
  x : List Int
  y : List Int
  w : List Int
  z : List Int

/-- `OccaConstrainedOperator::EliminateRHS` (lines 388-403). -/
def OccaConstrainedOperator.EliminateRHS (op : OccaConstrainedOperator) (x b : List Int) :
    ConstrainedBuffers :=
  if op.constraint_indices = 0 then
    { x := x, y := b, w := op.w, z := op.z }
  else
    let w := assignZero op.w
    let w := map_dofs op.constraint_indices w x op.constraint_list
    let z := op.A.Mult w
    let b := subAssign b z
    let b := map_dofs op.constraint_indices b x op.constraint_list
    { x := x, y := b, w := w, z := z }

/-- `OccaConstrainedOperator::Mult` (lines 405-421).  The argument `y` is written
only, so it is not an input of the embedding. -/
def OccaConstrainedOperator.Mult (op : OccaConstrainedOperator) (x : List Int) :
    ConstrainedBuffers :=
  if op.constraint_indices = 0 then
    { x := x, y := op.A.Mult x, w := op.w, z := op.z }
  else
    let z := x
    let z := clear_dofs op.constraint_indices z op.constraint_list
    let y := op.A.Mult z
    let y := map_dofs op.constraint_indices y x op.constraint_list
    { x := x, y := y, w := op.w, z := z }

/-- The vector that agrees with `x` on free indices and is zero on the constrained
ones. -/
def zeroAtConstraints (constraint_list : List Nat) (x : List Int) : List Int :=
  (List.range x.length).map (fun i => if i ∈ constraint_list then 0 else x.getD i 0)

/-- The vector of length `n` that agrees with `x` on the constrained indices and is
zero elsewhere. -/
def onlyAtConstraints (constraint_list : List Nat) (n : Nat) (x : List Int) : List Int :=
  (List.range n).map (fun i => if i ∈ constraint_list then x.getD i 0 else 0)

/-- Entry-wise sum of two vectors. -/
def vecAdd (u v : List Int) : List Int :=
  List.zipWith (fun a b => a + b) u v

/-! ## Restriction and prolongation (`src/fem/ointerpolation.cpp`) -/

/-- Modelled from the spec: the host sparse matrix type, which is not part of the
sources at hand.  Section 6: row-major sparse; each row is its list of
`(column, value)` entries. -/
structure SparseMatrix where
  height : Nat
  width : Nat
  rows : List (List (Nat × Int))

/-- Modelled from the spec: multiplication by a sparse matrix (the forward multiply of
section 4.4), `y[i]` the sum of `value * x[column]` over the entries of row `i`. -/
def SparseMatrix.mulVec (m : SparseMatrix) (x : List Int) : List Int :=
  (List.range m.height).map (fun i =>
    ((m.rows.getD i []).map (fun e => e.2 * x.getD e.1 0)).sum)

/-- The entry of a sparse matrix at row `i` and column `j`: the sum of the values
stored for that position. -/
def SparseMatrix.entry (m : SparseMatrix) (i j : Nat) : Int :=
  (((m.rows.getD i []).filter (fun e => decide (e.1 = j))).map (fun e => e.2)).sum

/-- Modelled from the spec: `Transpose` of a sparse matrix, which is not part of the
sources at hand.  Row `j` of the result lists, in row order, the entries of column
`j`. -/
def Transpose (m : SparseMatrix) : SparseMatrix :=
  { height := m.width
    width := m.height
    rows := (List.range m.width).map (fun j =>
      (List.range m.height).flatMap (fun i =>
        ((m.rows.getD i []).filter (fun e => decide (e.1 = j))).map (fun e => (i, e.2)))) }

/-- The object behind the pointer `P`: a host sparse matrix, or any other operator. -/
inductive HostOperator where
  | sparse (m : SparseMatrix)
  | general (op : Operator)

/-- The cast `dynamic_cast<const SparseMatrix*>(P)` of line 27. -/
def HostOperator.asSparse : HostOperator → Option SparseMatrix
  | .sparse m => some m
  | .general _ => none

/-- The `Operator` interface of the object behind `P`. -/
def HostOperator.toOperator : HostOperator → Operator
  | .sparse m =>
    { height := m.height, width := m.width, Mult := m.mulVec, MultTranspose := (Transpose m).mulVec }
  | .general op => op

/-- Modelled from the spec: the device sparse matrix, which is not part of the sources
at hand: dimensions, the host matrix it multiplies by, and the flat list of
`(local index, true index)` pairs of its selecting rows (section 3). -/
structure OccaSparseMatrix where
  height : Nat
  width : Nat
  reorderIndices : List Nat
  mat : SparseMatrix

/-- A default-constructed device sparse matrix. -/
def OccaSparseMatrix.empty : OccaSparseMatrix :=
  { height := 0, width := 0, reorderIndices := [], mat := { height := 0, width := 0, rows := [] } }

/-- Modelled from the spec: `CreateMappedSparseMatrix`, which is not part of the
sources at hand.  Each row of the matrix with exactly one entry, at column `j` of row
`i`, contributes the pair `(j, i)` to the index list (section 4.4: each row selects
exactly one local entry). -/
def CreateMappedSparseMatrix (m : SparseMatrix) : OccaSparseMatrix :=
  { height := m.height
    width := m.width
    reorderIndices := (List.range m.height).flatMap (fun i =>
      match m.rows.getD i [] with
      | [e] => [e.1, i]
      | _ => [])
    mat := m }

/-- Modelled from the spec: `OccaSparseMatrix::Mult`, multiplication by the matrix. -/
def OccaSparseMatrix.Mult (m : OccaSparseMatrix) (x : List Int) : List Int :=
  m.mat.mulVec x

/-- Modelled from the spec: the `ExtractSubVector` kernel of
`occa://mfem/linalg/mappings.okl`, which is not part of the sources at hand: a pure
index gather over the list of `(local index, true index)` pairs,
`y[true index] := x[local index]` for each of the `entries` pairs. -/
def ExtractSubVector (entries : Nat) (indices : List Nat) (x y : List Int) : List Int :=
  (List.range entries).foldl (fun y k =>
    y.set (indices.getD (2 * k + 1) 0) (x.getD (indices.getD (2 * k) 0) 0)) y

/-- State of an `OccaRestrictionOperator`. -/
structure OccaRestrictionOperator where
  height : Nat
  width : Nat
  entries : Nat
  trueIndices : List Nat

/-- The constructor `OccaRestrictionOperator::OccaRestrictionOperator` (lines 52-63):
two `int`s of the index buffer per entry. -/
def OccaRestrictionOperator.new (height_ width_ : Nat) (indices : List Nat) :
    OccaRestrictionOperator :=
  { height := height_, width := width_, entries := indices.length / 2, trueIndices := indices }

/-- `OccaRestrictionOperator::Mult` (lines 65-67): returns the new `y`. -/
def OccaRestrictionOperator.Mult (op : OccaRestrictionOperator) (x y : List Int) : List Int :=
  ExtractSubVector op.entries op.trueIndices x y

/-- The externally visible effects of an apply of the prolongation operator. -/
inductive Effect where
  | barrier
  | deviceToHost
  | applyForward
  | applyTranspose
  | hostToDevice
  | deviceMult
  | deviceMultTranspose
  deriving DecidableEq

/-- State of an `OccaProlongationOperator`: either the pair of device matrices (then
`pmat` is null) or the wrapped host operator with its two host vectors. -/
structure OccaProlongationOperator where
  height : Nat
  width : Nat
  pmat : Option Operator
  multOp : OccaSparseMatrix
  multTransposeOp : OccaSparseMatrix
  hostX : List Int
  hostY : List Int

/-- The constructor from a pair of device matrices (lines 69-74). -/
def OccaProlongationOperator.ofPair (multOp_ multTransposeOp_ : OccaSparseMatrix) :
    OccaProlongationOperator :=
  { height := multOp_.height
    width := multOp_.width
    pmat := none
    multOp := multOp_
    multTransposeOp := multTransposeOp_
    hostX := []
    hostY := [] }

/-- The constructor from a host operator (lines 76-80). -/
def OccaProlongationOperator.ofOperator (pmat_ : Operator) : OccaProlongationOperator :=
  { height := pmat_.height
    width := pmat_.width
    pmat := some pmat_
    multOp := OccaSparseMatrix.empty
    multTransposeOp := OccaSparseMatrix.empty
    hostX := List.replicate pmat_.width 0
    hostY := List.replicate pmat_.height 0 }

/-- What an apply of the prolongation operator leaves behind: the output `y`, the two
host vectors, and the effects in the order they happened. -/
structure ProlongationRun where
  y : List Int
  hostX : List Int
  hostY : List Int
  trace : List Effect

/-- `OccaProlongationOperator::Mult` (lines 82-91).  A transfer copies the whole
buffer; `y` is written only. -/
def OccaProlongationOperator.Mult (op : OccaProlongationOperator) (x : List Int) :
    ProlongationRun :=
  match op.pmat with
  | some pmat =>
    let trace := [Effect.barrier]
    let hostX := x
    let trace := trace ++ [Effect.deviceToHost]
    let hostY := pmat.Mult hostX
    let trace := trace ++ [Effect.applyForward]
    let y := hostY
    let trace := trace ++ [Effect.hostToDevice]
    { y := y, hostX := hostX, hostY := hostY, trace := trace }
  | none =>
    { y := op.multOp.Mult x, hostX := op.hostX, hostY := op.hostY,
      trace := [Effect.deviceMult] }

/-- `OccaProlongationOperator::MultTranspose` (lines 93-101). -/
def OccaProlongationOperator.MultTranspose (op : OccaProlongationOperator) (x : List Int) :
    ProlongationRun :=
  match op.pmat with
  | some pmat =>
    let hostY := x
    let trace := [Effect.deviceToHost]
    let hostX := pmat.MultTranspose hostY
    let trace := trace ++ [Effect.applyTranspose]
    let y := hostX
    let trace := trace ++ [Effect.hostToDevice]
    { y := y, hostX := hostX, hostY := hostY, trace := trace }
  | none =>
    { y := op.multTransposeOp.Mult x, hostX := op.hostX, hostY := op.hostY,
      trace := [Effect.deviceMultTranspose] }

/-- What the output pointers `OccaR` and `OccaP` can point to. -/
inductive OccaOperator where
  | restriction (r : OccaRestrictionOperator)
  | prolongation (p : OccaProlongationOperator)

/-- `CreateRPOperators` (lines 19-50).  `R` and `P` are the two input pointers (`none`
for null); `OccaR` is the value of the first output reference before the call, and
the result is the pair of values of `OccaR` and `OccaP` after it.  The reference
`OccaP` is assigned on every path, so its value before the call is not an input; the
device argument only selects where buffers live. -/
def CreateRPOperators (R : Option SparseMatrix) (P : Option HostOperator)
    (OccaR : Option OccaOperator) : Option OccaOperator × Option OccaOperator :=
  match P with
  | none => (none, none)
  | some P =>
    let pmat := P.asSparse
    let OccaR :=
      match R with
      | some R =>
        let occaR := CreateMappedSparseMatrix R
        let reorderIndices := occaR.reorderIndices
        some (OccaOperator.restriction
          (OccaRestrictionOperator.new R.height R.width reorderIndices))
      | none => OccaR
    let OccaP :=
      match pmat with
      | some pmat =>
        let pmatT := Transpose pmat
        let occaP := CreateMappedSparseMatrix pmat
        let occaPT := CreateMappedSparseMatrix pmatT
        some (OccaOperator.prolongation (OccaProlongationOperator.ofPair occaP occaPT))
      | none => some (OccaOperator.prolongation (OccaProlongationOperator.ofOperator P.toOperator))
    (OccaR, OccaP)

/-- The prolongation forward multiply followed by the restriction gather, through the
operators that `CreateRPOperators` builds for `R` and `P`; `yTrue` is the content of
the output vector of the gather before the call. -/
def prolongThenRestrict (R : SparseMatrix) (P : HostOperator) (x yTrue : List Int) :
    Option (List Int) :=
  match CreateRPOperators (some R) (some P) none with
  | (some (OccaOperator.restriction r), some (OccaOperator.prolongation p)) =>
    some (r.Mult (p.Mult x).y yTrue)
  | _ => none

/-! ## The bilinear form object (`OccaBilinearForm`) -/

/-- An `occa::device` handle: the default-constructed (null) handle or a device. -/
inductive Device where
  | null
  | handle (id : Nat)
  deriving DecidableEq

/-- Modelled from the spec: kernel-build options, a flat mapping of option name to
value (section 6). -/
abbrev Props := List (String × Nat)

/-- Modelled from the spec: `props[name] = value` on kernel-build options. -/
def Props.assign (props : Props) (name : String) (value : Nat) : Props :=
  props.filter (fun kv => decide (kv.1 ≠ name)) ++ [(name, value)]

/-- Modelled from the spec: `+` on kernel-build options, the options of both
operands, the per-call ones last. -/
def Props.merge (a b : Props) : Props :=
  a ++ b

/-- The members of an `OccaBilinearForm`.  The first five are what the apply path
reads: the number of dofs of the space, the device dof map, the local scratch vector
and the registered local-apply units (each one the in-place `Mult` of an integrator).
The others are the operator height, the device, the base kernel options and the two
interpolation operators; their defaults stand for members nobody has assigned. -/
structure OccaBilinearForm where
  numDofs : Nat
  globalToLocalOffsets : List Nat
  globalToLocalIndices : List Nat
  localX : List Int
  integrators : List (List Int → List Int)
  height : Nat := 0
  device : Device := Device.null
  baseKernelProps : Props := []
  restrictionOp : Option OccaOperator := none
  prolongationOp : Option OccaOperator := none

/-- `OccaBilinearForm::VectorExtract` (lines 240-247): returns the new `localVec`. -/
def OccaBilinearForm.VectorExtract (form : OccaBilinearForm) (globalVec localVec : List Int) :
    List Int :=
  vectorExtractKernel form.numDofs form.globalToLocalOffsets form.globalToLocalIndices
    globalVec localVec

/-- `OccaBilinearForm::VectorAssemble` (lines 250-257): returns the new `globalVec`. -/
def OccaBilinearForm.VectorAssemble (form : OccaBilinearForm) (localVec globalVec : List Int) :
    List Int :=
  vectorAssembleKernel form.numDofs form.globalToLocalOffsets form.globalToLocalIndices
    localVec globalVec

/-- `OccaBilinearForm::Mult` (lines 270-279): returns the pair of the scratch vector
`localX` and the output `y` as they are when the call returns. -/
def OccaBilinearForm.Mult (form : OccaBilinearForm) (x y : List Int) : List Int × List Int :=
  let localX := form.VectorExtract x form.localX
  let integratorCount := form.integrators.length
  let localX := (List.range integratorCount).foldl (fun localX i =>
    (form.integrators.getD i id) localX) localX
  (localX, form.VectorAssemble localX y)

/-! ## Integrator registration and unsupported transpose -/

/-- Modelled from the spec: `mfem_error`, which is not part of the sources at hand.
Section 7: a fatal, non-recoverable failure; the call does not return and the message
is the error it surfaces. -/
def mfem_error (msg : String) : Option String :=
  some msg

/-- The integrator type passed by the four `Add*Integrator` entry points. -/
inductive OccaIntegratorType where
  | DomainIntegrator
  | BoundaryIntegrator
  | InteriorFaceIntegrator
  | BoundaryFaceIntegrator
  deriving DecidableEq

/-- What the registration reads of a `BilinearFormIntegrator`: its declared name. -/
structure BilinearFormIntegrator where
  Name : String

/-- A registered kernel builder (a non-null `OccaIntegrator*` of the builder map):
its `CreateInstance` makes a local-apply unit. -/
structure IntegratorBuilder where
  CreateInstance : BilinearFormIntegrator → Props → OccaIntegratorType → (List Int → List Int)

/-- The static builder map `integratorBuilders`: names with their builder pointer
(`none` for a null pointer). -/
abbrev Registry := List (String × Option IntegratorBuilder)

/-- The subscript `integratorBuilders[name]` of a `std::map`: the stored pointer, or a
null pointer stored under `name` first when the name has no entry.  Returns the pointer
and the map after the access. -/
def Registry.subscript (reg : Registry) (name : String) : Option IntegratorBuilder × Registry :=
  match reg.lookup name with
  | some builder => (builder, reg)
  | none => (none, reg ++ [(name, none)])

/-- The builder registered for a name, if the map has one. -/
def Registry.builderFor (reg : Registry) (name : String) : Option IntegratorBuilder :=
  match reg.lookup name with
  | some builder => builder
  | none => none

/-- The state when a call of `AddIntegrator` ends: the fatal error if it failed, the
builder map and the form. -/
structure AddResult where
  error : Option String
  integratorBuilders : Registry
  form : OccaBilinearForm

/-- `OccaBilinearForm::AddIntegrator` (lines 206-227). -/
def OccaBilinearForm.AddIntegrator (form : OccaBilinearForm) (integratorBuilders : Registry)
    (bfi : BilinearFormIntegrator) (props : Props) (itype : OccaIntegratorType) : AddResult :=
  let (builder, integratorBuilders) := integratorBuilders.subscript bfi.Name
  match builder with
  | none =>
    let error_ss := "OccaBilinearForm::"
    let error_ss := error_ss ++
      (match itype with
       | .DomainIntegrator => "AddDomainIntegrator"
       | .BoundaryIntegrator => "AddBoundaryIntegrator"
       | .InteriorFaceIntegrator => "AddInteriorFaceIntegrator"
       | .BoundaryFaceIntegrator => "AddBoundaryFaceIntegrator")
    let error_ss := error_ss ++ " (...):\n" ++
      "  No kernel builder for occa::BilinearFormIntegrator \x27" ++ bfi.Name ++ "\x27"
    { error := mfem_error error_ss, integratorBuilders := integratorBuilders, form := form }
  | some builder =>
    { error := none
      integratorBuilders := integratorBuilders
      form := { form with
        integrators := form.integrators ++
          [builder.CreateInstance bfi (Props.merge form.baseKernelProps props) itype] } }

/-- `OccaBilinearForm::AddDomainIntegrator` (lines 182-185). -/
def OccaBilinearForm.AddDomainIntegrator (form : OccaBilinearForm)
    (integratorBuilders : Registry) (bfi : BilinearFormIntegrator) (props : Props) : AddResult :=
  form.AddIntegrator integratorBuilders bfi props OccaIntegratorType.DomainIntegrator

/-- `OccaBilinearForm::AddBoundaryIntegrator` (lines 188-191). -/
def OccaBilinearForm.AddBoundaryIntegrator (form : OccaBilinearForm)
    (integratorBuilders : Registry) (bfi : BilinearFormIntegrator) (props : Props) : AddResult :=
  form.AddIntegrator integratorBuilders bfi props OccaIntegratorType.BoundaryIntegrator

/-- `OccaBilinearForm::AddInteriorFaceIntegrator` (lines 194-197). -/
def OccaBilinearForm.AddInteriorFaceIntegrator (form : OccaBilinearForm)
    (integratorBuilders : Registry) (bfi : BilinearFormIntegrator) (props : Props) : AddResult :=
  form.AddIntegrator integratorBuilders bfi props OccaIntegratorType.InteriorFaceIntegrator

/-- `OccaBilinearForm::AddBoundaryFaceIntegrator` (lines 200-203). -/
def OccaBilinearForm.AddBoundaryFaceIntegrator (form : OccaBilinearForm)
    (integratorBuilders : Registry) (bfi : BilinearFormIntegrator) (props : Props) : AddResult :=
  form.AddIntegrator integratorBuilders bfi props OccaIntegratorType.BoundaryFaceIntegrator

/-- The state when a call of `MultTranspose` ends: the fatal error and the output
vector. -/
structure MultTransposeResult where
  error : Option String
  y : List Int

/-- `OccaBilinearForm::MultTranspose` (lines 282-284). -/
def OccaBilinearForm.MultTranspose (form : OccaBilinearForm) (x y : List Int) :
    MultTransposeResult :=
  { error := mfem_error "occa::OccaBilinearForm::MultTranspose() is not overloaded!", y := y }

/-! ## Construction of the form (`Init`) -/

/-- What the form reads of its finite element space and mesh: element count, dof
count, vector-block width, vector size, the local dof count and optional tensor dof
map of element 0, the `J` array of the element-to-dof table, and the restriction and
prolongation of the space. -/
structure FiniteElementSpace where
  NE : Nat
  NDofs : Nat
  VDim : Nat
  VSize : Nat
  localDofs : Nat
  dofMap : Option (List Nat)
  elementToDof : List Nat
  R : Option SparseMatrix
  P : Option HostOperator

/-- What the set-up reads from outside the form and the space: the name and the
builder of the diffusion integrator, and `occa::currentDevice()`. -/
structure Collaborators where
  diffusionName : String
  diffusionBuilder : IntegratorBuilder
  currentDevice : Device

/-- `OccaBilinearForm::SetupIntegratorBuilderMap` (lines 48-54), on the static builder
map. -/
def SetupIntegratorBuilderMap (env : Collaborators) (integratorBuilders : Registry) : Registry :=
  if 0 < integratorBuilders.length then
    integratorBuilders
  else
    integratorBuilders.filter (fun kv => decide (kv.1 ≠ env.diffusionName))
      ++ [(env.diffusionName, some env.diffusionBuilder)]

/-- `OccaBilinearForm::SetupKernels` (lines 56-69): the base kernel options get the
vector-block width; building the two mapping kernels is left to the execution
engine. -/
def OccaBilinearForm.SetupKernels (form : OccaBilinearForm) (fes : FiniteElementSpace) :
    OccaBilinearForm :=
  { form with baseKernelProps := form.baseKernelProps.assign "defines/NUM_VDIM" fes.VDim }

/-- `OccaBilinearForm::SetupIntegratorData` (lines 71-142) on the members of the form:
the two device arrays and the local scratch vector, sized `elements * localDofs`. -/
def OccaBilinearForm.SetupIntegratorData (form : OccaBilinearForm) (fes : FiniteElementSpace) :
    OccaBilinearForm :=
  let data := mfem.SetupIntegratorData fes.elementToDof fes.dofMap fes.NE fes.NDofs fes.localDofs
  { form with
    globalToLocalOffsets := data.globalToLocalOffsets
    globalToLocalIndices := data.globalToLocalIndices
    localX := List.replicate data.localXSize 0 }

/-- `OccaBilinearForm::SetupInterpolationData` (lines 144-151). -/
def OccaBilinearForm.SetupInterpolationData (form : OccaBilinearForm)
    (fes : FiniteElementSpace) : OccaBilinearForm :=
  let R := fes.R
  let P := fes.P
  let out := CreateRPOperators R P form.restrictionOp
  { form with restrictionOp := out.1, prolongationOp := out.2 }

/-- `OccaBilinearForm::Init` (lines 37-46).  Returns the static builder map and the
form. -/
def OccaBilinearForm.Init (form : OccaBilinearForm) (env : Collaborators)
    (integratorBuilders : Registry) (device_ : Device) (f : FiniteElementSpace) :
    Registry × OccaBilinearForm :=
  let form := { form with numDofs := f.NDofs }
  let form := { form with device := device_ }
  let integratorBuilders := SetupIntegratorBuilderMap env integratorBuilders
  let form := form.SetupKernels f
  let form := form.SetupIntegratorData f
  let form := form.SetupInterpolationData f
  (integratorBuilders, form)

/-- The constructor `OccaBilinearForm(FiniteElementSpace *f)` (lines 27-30).  `form`
holds the members as they are when the constructor body starts. -/
def OccaBilinearForm.construct (form : OccaBilinearForm) (env : Collaborators)
    (integratorBuilders : Registry) (f : FiniteElementSpace) : Registry × OccaBilinearForm :=
  let form := { form with height := f.VSize }
  form.Init env integratorBuilders env.currentDevice f

/-- The constructor `OccaBilinearForm(occa::device device_, FiniteElementSpace *f)`
(lines 32-35): it hands the member `device` to `Init`.  `form` holds the members as
they are when the constructor body starts. -/
def OccaBilinearForm.constructOn (form : OccaBilinearForm) (env : Collaborators)
    (integratorBuilders : Registry) (device_ : Device) (f : FiniteElementSpace) :
    Registry × OccaBilinearForm :=
  let form := { form with height := f.VSize }
  form.Init env integratorBuilders form.device f

/-- `OccaBilinearForm::GetDevice` (lines 153-155). -/
def OccaBilinearForm.GetDevice (form : OccaBilinearForm) : Device :=
  form.device

/-- `OccaBilinearForm::GetVDim` (lines 174-175), read from the space. -/
def FiniteElementSpace.GetVDim (fes : FiniteElementSpace) : Nat :=
  fes.VDim

/-! ## The dof map construction with its array accesses recorded -/

/-- The array accesses of one iteration of the counting pass (lines 103-104): the
index read in `elementMap` and the index incremented in `offsets`. -/
structure CountAccess where
  elementMapIdx : Nat
  offsetsIdx : Nat
  deriving DecidableEq

/-- The array accesses of one iteration of the fill pass (lines 115-117): the index
read in `dofMap`, the index read in `elementMap`, the index read and incremented in
`offsets`, and the index written in `indices`. -/
structure FillAccess where
  dofMapIdx : Nat
  elementMapIdx : Nat
  offsetsIdx : Nat
  indicesIdx : Nat
  deriving DecidableEq

/-- The counting pass of lines 101-106 as `countPass`, with the accesses of every
iteration appended to a log. -/
def countPassLogged (elementMap : List Nat) (elements localDofs : Nat)
    (st : List Nat × List CountAccess) : List Nat × List CountAccess :=
  (List.range elements).foldl (fun st e =>
    (List.range localDofs).foldl (fun st d =>
      let gid := elementMap.getD (localDofs * e + d) 0
      (st.1.set (gid + 1) (st.1.getD (gid + 1) 0 + 1),
        st.2 ++ [{ elementMapIdx := localDofs * e + d, offsetsIdx := gid + 1 }])) st) st

/-- The fill pass of lines 113-119 as `fillPass`, with the accesses of every iteration
appended to a log. -/
def fillPassLogged (elementMap dofMap : List Nat) (elements localDofs : Nat)
    (st : (List Nat × List Nat) × List FillAccess) : (List Nat × List Nat) × List FillAccess :=
  (List.range elements).foldl (fun st e =>
    (List.range localDofs).foldl (fun st d =>
      let gid := elementMap.getD (localDofs * e + dofMap.getD d 0) 0
      let lid := localDofs * e + d
      ((st.1.1.set gid (st.1.1.getD gid 0 + 1), st.1.2.set (st.1.1.getD gid 0) lid),
        st.2 ++ [{ dofMapIdx := d
                   elementMapIdx := localDofs * e + dofMap.getD d 0
                   offsetsIdx := gid
                   indicesIdx := st.1.1.getD gid 0 }])) st) st

/-- The result of `SetupIntegratorDataLogged`: the data and the two access logs. -/
structure LoggedSetup where
  data : IntegratorData
  countLog : List CountAccess
  fillLog : List FillAccess

/-- `SetupIntegratorData` (lines 71-142) with the accesses of the counting pass and of
the fill pass recorded. -/
def SetupIntegratorDataLogged (elementMap : List Nat) (el : Option (List Nat))
    (elements numDofs localDofs : Nat) : LoggedSetup :=
  let dofMap := selectDofMap el localDofs
  let offsets := zeroOffsets numDofs
  let indices := List.replicate (elements * localDofs) 0
  let counted := countPassLogged elementMap elements localDofs (offsets, [])
  let offsets := aggregate numDofs counted.1
  let filled := fillPassLogged elementMap dofMap elements localDofs ((offsets, indices), [])
  let offsets := shiftBack numDofs filled.1.1
  { data :=
      { globalToLocalOffsets := offsets
        globalToLocalIndices := filled.1.2
        localXSize := elements * localDofs }
    countLog := counted.2
    fillLog := filled.2 }

/-! ## Vocabulary for the symmetry of the constrained operator -/

/-- The standard dot product of two vectors, over the entries of the first. -/
def dot (u v : List Int) : Int :=
  ((List.range u.length).map (fun i => u.getD i 0 * v.getD i 0)).sum

/-- A vector scaled entry by entry. -/
def vecScale (c : Int) (u : List Int) : List Int :=
  u.map (fun a => c * a)

end mfem

namespace mfem

/-! ## Array and loop lemmas -/

theorem getD_set_self {α : Type} (l : List α) (i : Nat) (v d : α) (h : i < l.length) :
    (l.set i v).getD i d = v := by
  simp [List.getElem?_set, h]

theorem getD_set_other {α : Type} (l : List α) (i j : Nat) (v d : α) (h : i ≠ j) :
    (l.set i v).getD j d = l.getD j d := by
  simp [List.getElem?_set, h]

theorem foldl_nested {σ : Type} (step : σ → Nat → Nat → σ) (es ds : List Nat) (s : σ) :
    es.foldl (fun s e => ds.foldl (fun s d => step s e d) s) s
      = (es.flatMap (fun e => ds.map (fun d => (e, d)))).foldl (fun s p => step s p.1 p.2) s := by
  induction es generalizing s with
  | nil => rfl
  | cons e es ih =>
    simp only [List.foldl_cons, List.flatMap_cons, List.foldl_append, List.foldl_map]
    exact ih _

theorem range_flatMap_pairs (E L : Nat) :
    (List.range E).flatMap (fun e => (List.range L).map (fun d => (e, d)))
      = (List.range (E * L)).map (fun i => (i / L, i % L)) := by
  induction E with
  | zero => simp
  | succ E ih =>
    rw [List.range_succ, List.flatMap_append, ih, Nat.succ_mul, List.range_add, List.map_append,
      List.map_map]
    congr 1
    simp only [List.flatMap_cons, List.flatMap_nil, List.append_nil]
    apply List.map_congr_left
    intro d hd
    have hd : d < L := List.mem_range.mp hd
    have hL : 0 < L := by omega
    simp only [Function.comp]
    rw [Nat.add_comm (E * L) d, Nat.add_mul_div_right d E hL, Nat.add_mul_mod_self_right,
      Nat.div_eq_of_lt hd, Nat.mod_eq_of_lt hd, Nat.zero_add]

theorem foldl_nested_range {σ : Type} (step : σ → Nat → Nat → σ) (E L : Nat) (s : σ) :
    (List.range E).foldl (fun s e => (List.range L).foldl (fun s d => step s e d) s) s
      = (List.range (E * L)).foldl (fun s i => step s (i / L) (i % L)) s := by
  rw [foldl_nested, range_flatMap_pairs, List.foldl_map]

theorem getElem?_foldl_set_range {α : Type} (f : Nat → α) (k : Nat) (m : List α) (j : Nat) :
    ((List.range k).foldl (fun m i => m.set i (f i)) m)[j]?
      = if j < k then (if j < m.length then some (f j) else none) else m[j]? := by
  induction k with
  | zero => simp
  | succ k ih =>
    have hlen : ((List.range k).foldl (fun m i => m.set i (f i)) m).length = m.length := by
      clear ih
      induction k with
      | zero => simp
      | succ k ih2 => simp [List.range_succ, List.foldl_append, ih2]
    rw [List.range_succ, List.foldl_append]
    simp only [List.foldl_cons, List.foldl_nil, List.getElem?_set, hlen, ih]
    by_cases h1 : k = j
    · subst h1; simp
    · by_cases h2 : j < k
      · have : j < k + 1 := by omega
        simp [h1, h2, this]
      · have : ¬ j < k + 1 := by omega
        simp [h1, h2, this]

theorem length_foldl_set_range {α : Type} (f : Nat → α) (k : Nat) (m : List α) :
    ((List.range k).foldl (fun m i => m.set i (f i)) m).length = m.length := by
  induction k with
  | zero => simp
  | succ k ih => simp [List.range_succ, List.foldl_append, ih]

theorem zeroOffsets_eq (numDofs : Nat) : zeroOffsets numDofs = List.replicate (numDofs + 1) 0 := by
  apply List.ext_getElem?
  intro j
  unfold zeroOffsets
  rw [getElem?_foldl_set_range]
  by_cases h : j < numDofs + 1 <;> simp [h, List.getElem?_replicate]

theorem selectDofMap_none (localDofs : Nat) : selectDofMap none localDofs = List.range localDofs := by
  apply List.ext_getElem?
  intro j
  unfold selectDofMap
  simp only
  rw [getElem?_foldl_set_range]
  by_cases h : j < localDofs
  · simp [h, List.getElem?_range, List.getElem?_replicate]
  · simp [h, List.getElem?_range, List.getElem?_replicate]
    omega

/-! ## Counting lemmas -/

theorem startOf_succ (key : Nat → Nat) (n g : Nat) :
    startOf key n (g + 1) = startOf key n g + multiplicity key n g := by
  unfold startOf multiplicity
  induction (List.range n) with
  | nil => simp
  | cons a l ih =>
    simp only [List.countP_cons, ih]
    by_cases h1 : key a < g
    · have h2 : key a < g + 1 := by omega
      have h3 : key a ≠ g := by omega
      simp [h1, h2, h3]; omega
    · by_cases h3 : key a = g
      · have h2 : key a < g + 1 := by omega
        simp [h1, h2, h3]; omega
      · have h2 : ¬ key a < g + 1 := by omega
        simp [h1, h2, h3]

theorem startOf_zero (key : Nat → Nat) (n : Nat) : startOf key n 0 = 0 := by
  simp [startOf]

theorem startOf_mono (key : Nat → Nat) (n : Nat) {g h : Nat} (hgh : g ≤ h) :
    startOf key n g ≤ startOf key n h := by
  induction hgh with
  | refl => exact Nat.le_refl _
  | step _ ih => rw [startOf_succ]; omega

theorem startOf_top (key : Nat → Nat) (n N : Nat) (hkey : ∀ i < n, key i < N) :
    startOf key n N = n := by
  unfold startOf
  rw [List.countP_eq_length.mpr]
  · simp
  · intro i hi
    simpa using hkey i (List.mem_range.mp hi)

theorem multiplicity_succ (key : Nat → Nat) (t g : Nat) :
    multiplicity key (t + 1) g = multiplicity key t g + (if key t = g then 1 else 0) := by
  unfold multiplicity
  rw [List.range_succ, List.countP_append]
  by_cases h : key t = g <;> simp [h]

theorem multiplicity_mono (key : Nat → Nat) (g : Nat) {t n : Nat} (htn : t ≤ n) :
    multiplicity key t g ≤ multiplicity key n g := by
  induction htn with
  | refl => exact Nat.le_refl _
  | step _ ih => rw [multiplicity_succ]; omega

theorem multiplicity_lt (key : Nat → Nat) {t n : Nat} (htn : t < n) :
    multiplicity key t (key t) < multiplicity key n (key t) := by
  have h1 := multiplicity_mono key (key t) (Nat.succ_le_of_lt htn)
  rw [multiplicity_succ] at h1
  simp at h1
  omega

theorem bucket_succ (key : Nat → Nat) (t g : Nat) :
    bucket key (t + 1) g = bucket key t g ++ (if key t = g then [t] else []) := by
  unfold bucket
  rw [List.range_succ, List.filter_append]
  by_cases h : key t = g <;> simp [h]

theorem length_bucket (key : Nat → Nat) (n g : Nat) :
    (bucket key n g).length = multiplicity key n g := by
  unfold bucket multiplicity
  rw [List.countP_eq_length_filter]

/-- Ranges of distinct dofs do not overlap: a slot of the bucket of `g` is never a
slot of the bucket of `h`. -/
theorem slot_ne (key : Nat → Nat) (n : Nat) {g h j k : Nat} (hgh : g ≠ h)
    (hj : j < multiplicity key n g) (hk : k < multiplicity key n h) :
    startOf key n g + j ≠ startOf key n h + k := by
  rcases Nat.lt_or_gt_of_ne hgh with hlt | hgt
  · have h1 := startOf_mono key n (Nat.succ_le_of_lt hlt)
    rw [startOf_succ] at h1
    omega
  · have h1 := startOf_mono key n (Nat.succ_le_of_lt hgt)
    rw [startOf_succ] at h1
    omega

theorem slot_lt (key : Nat → Nat) (n N : Nat) (hkey : ∀ i < n, key i < N) {g j : Nat}
    (hg : g < N) (hj : j < multiplicity key n g) : startOf key n g + j < n := by
  have h1 := startOf_mono key n (Nat.succ_le_of_lt hg)
  rw [startOf_succ, startOf_top key n N hkey] at h1
  omega

/-! ## The four loops of the dof map construction, over flat indices -/

theorem count_loop (key : Nat → Nat) (N : Nat) (offs0 : List Nat) (hlen : offs0.length = N + 1)
    (t : Nat) (hkey : ∀ i < t, key i < N) :
    ((List.range t).foldl (fun offs i =>
        offs.set (key i + 1) (offs.getD (key i + 1) 0 + 1)) offs0).length = N + 1 ∧
    ((List.range t).foldl (fun offs i =>
        offs.set (key i + 1) (offs.getD (key i + 1) 0 + 1)) offs0).getD 0 0 = offs0.getD 0 0 ∧
    ∀ g, ((List.range t).foldl (fun offs i =>
        offs.set (key i + 1) (offs.getD (key i + 1) 0 + 1)) offs0).getD (g + 1) 0
          = offs0.getD (g + 1) 0 + multiplicity key t g := by
  induction t with
  | zero => simp [hlen, multiplicity]
  | succ t ih =>
    obtain ⟨h1, h2, h3⟩ := ih (fun i hi => hkey i (by omega))
    have hk : key t < N := hkey t (by omega)
    rw [List.range_succ, List.foldl_append]
    simp only [List.foldl_cons, List.foldl_nil]
    refine ⟨by rw [List.length_set]; exact h1, ?_, ?_⟩
    · rw [getD_set_other _ _ _ _ _ (by omega)]; exact h2
    · intro g
      rw [multiplicity_succ]
      by_cases hg : key t = g
      · subst hg
        rw [getD_set_self _ _ _ _ (by omega), h3]
        simp; omega
      · rw [getD_set_other _ _ _ _ _ (by omega), h3]
        simp [hg]

theorem aggregate_loop (key : Nat → Nat) (n N : Nat) (offs0 : List Nat)
    (hlen : offs0.length = N + 1) (h0 : offs0.getD 0 0 = 0)
    (hc : ∀ g, offs0.getD (g + 1) 0 = multiplicity key n g) (k : Nat) (hk : k ≤ N) :
    ((List.range' 1 k).foldl (fun offs i =>
        offs.set i (offs.getD i 0 + offs.getD (i - 1) 0)) offs0).length = N + 1 ∧
    (∀ j, j ≤ k → ((List.range' 1 k).foldl (fun offs i =>
        offs.set i (offs.getD i 0 + offs.getD (i - 1) 0)) offs0).getD j 0 = startOf key n j) ∧
    (∀ j, k < j → ((List.range' 1 k).foldl (fun offs i =>
        offs.set i (offs.getD i 0 + offs.getD (i - 1) 0)) offs0).getD j 0 = offs0.getD j 0) := by
  induction k with
  | zero =>
    refine ⟨by simpa using hlen, ?_, by simp⟩
    intro j hj
    have : j = 0 := by omega
    subst this
    simpa [startOf_zero] using h0
  | succ k ih =>
    obtain ⟨h1, h2, h3⟩ := ih (by omega)
    rw [List.range'_concat, List.foldl_append]
    simp only [List.foldl_cons, List.foldl_nil, Nat.one_mul]
    have e1 : 1 + k = k + 1 := by omega
    rw [e1]
    simp only [Nat.add_sub_cancel]
    refine ⟨by rw [List.length_set]; exact h1, ?_, ?_⟩
    · intro j hj
      by_cases hjk : j = k + 1
      · subst hjk
        rw [getD_set_self _ _ _ _ (by omega), h3 _ (by omega), h2 _ (Nat.le_refl _), hc,
          startOf_succ]
        omega
      · rw [getD_set_other _ _ _ _ _ (by omega)]
        exact h2 j (by omega)
    · intro j hj
      rw [getD_set_other _ _ _ _ _ (by omega)]
      exact h3 j (by omega)

theorem shift_loop (N : Nat) (offs0 : List Nat) :
    ((List.range' 1 N).reverse.foldl (fun offs i =>
        offs.set i (offs.getD (i - 1) 0)) offs0).length = offs0.length ∧
    (∀ j, 1 ≤ j → j ≤ N → j < offs0.length →
      ((List.range' 1 N).reverse.foldl (fun offs i =>
        offs.set i (offs.getD (i - 1) 0)) offs0).getD j 0 = offs0.getD (j - 1) 0) ∧
    (∀ j, N < j → ((List.range' 1 N).reverse.foldl (fun offs i =>
        offs.set i (offs.getD (i - 1) 0)) offs0).getD j 0 = offs0.getD j 0) := by
  induction N generalizing offs0 with
  | zero =>
    refine ⟨by simp, ?_, by simp⟩
    intro j h1 h2
    omega
  | succ N ih =>
    rw [List.range'_concat, List.reverse_append]
    simp only [List.reverse_cons, List.reverse_nil, List.nil_append, List.singleton_append,
      List.foldl_cons, Nat.one_mul]
    have e1 : 1 + N = N + 1 := by omega
    rw [e1]
    simp only [Nat.add_sub_cancel]
    obtain ⟨h1, h2, h3⟩ := ih (offs0.set (N + 1) (offs0.getD N 0))
    refine ⟨by simpa using h1, ?_, ?_⟩
    · intro j hj1 hj2 hj3
      by_cases hjN : j = N + 1
      · subst hjN
        rw [h3 _ (by omega), getD_set_self _ _ _ _ hj3]
        simp
      · rw [h2 j hj1 (by omega) (by simpa using hj3), getD_set_other _ _ _ _ _ (by omega)]
    · intro j hj
      rw [h3 j (by omega), getD_set_other _ _ _ _ _ (by omega)]

theorem fill_loop (key : Nat → Nat) (n N : Nat) (hkey : ∀ i < n, key i < N)
    (offs0 inds0 : List Nat) (hlo : offs0.length = N + 1) (hli : inds0.length = n)
    (h0 : ∀ g, g ≤ N → offs0.getD g 0 = startOf key n g) (t : Nat) (ht : t ≤ n) :
    ∀ r, r = (List.range t).foldl (fun (st : List Nat × List Nat) i =>
        (st.1.set (key i) (st.1.getD (key i) 0 + 1), st.2.set (st.1.getD (key i) 0) i))
        (offs0, inds0) →
      r.1.length = N + 1 ∧ r.2.length = n ∧
      (∀ g, g ≤ N → r.1.getD g 0 = startOf key n g + multiplicity key t g) ∧
      (∀ g j, j < multiplicity key t g →
        r.2.getD (startOf key n g + j) 0 = (bucket key t g).getD j 0) := by
  induction t with
  | zero =>
    intro r hr
    subst hr
    simp only [List.range_zero, List.foldl_nil]
    refine ⟨hlo, hli, ?_, ?_⟩
    · intro g hg
      rw [h0 g hg]
      simp [multiplicity]
    · intro g j hj
      simp [multiplicity] at hj
  | succ t ih =>
    intro r hr
    rw [List.range_succ, List.foldl_append] at hr
    simp only [List.foldl_cons, List.foldl_nil] at hr
    obtain ⟨h1, h2, h3, h4⟩ := ih (by omega) _ rfl
    generalize (List.range t).foldl (fun (st : List Nat × List Nat) i =>
        (st.1.set (key i) (st.1.getD (key i) 0 + 1), st.2.set (st.1.getD (key i) 0) i))
        (offs0, inds0) = q at hr h1 h2 h3 h4
    subst hr
    have hk : key t < N := hkey t (by omega)
    have hpos : q.1.getD (key t) 0 = startOf key n (key t) + multiplicity key t (key t) :=
      h3 _ (by omega)
    have hmlt : multiplicity key t (key t) < multiplicity key n (key t) :=
      multiplicity_lt key (by omega)
    refine ⟨by rw [List.length_set]; exact h1, by rw [List.length_set]; exact h2, ?_, ?_⟩
    · intro g hg
      rw [multiplicity_succ]
      by_cases hgk : key t = g
      · subst hgk
        rw [getD_set_self _ _ _ _ (by omega), hpos]
        simp; omega
      · rw [getD_set_other _ _ _ _ _ hgk, h3 g hg]
        simp [hgk]
    · intro g j hj
      rw [multiplicity_succ] at hj
      rw [bucket_succ, hpos]
      by_cases hgk : key t = g
      · subst hgk
        simp only [if_true] at hj ⊢
        by_cases hjm : j = multiplicity key t (key t)
        · subst hjm
          rw [getD_set_self _ _ _ _ (by rw [h2]; exact slot_lt key n N hkey hk hmlt),
            List.getD_append_right _ _ _ _ (by rw [length_bucket]), length_bucket]
          simp
        · have hj2 : j < multiplicity key t (key t) := by omega
          rw [getD_set_other _ _ _ _ _ (by omega), h4 _ _ hj2,
            List.getD_append _ _ _ _ (by rw [length_bucket]; exact hj2)]
      · simp only [hgk, if_false, Nat.add_zero, List.append_nil] at hj ⊢
        have hj2 : j < multiplicity key n g :=
          Nat.lt_of_lt_of_le hj (multiplicity_mono key g ht |> fun h =>
            Nat.le_trans (multiplicity_mono key g (Nat.le_succ t)) h)
        rw [getD_set_other _ _ _ _ _ (slot_ne key n hgk hmlt hj2), h4 _ _ hj]

/-! ## The two passes see the same multiset of keys -/

theorem map_getD_range (l : List Nat) : (List.range l.length).map (fun d => l.getD d 0) = l := by
  apply List.ext_getElem?
  intro j
  by_cases h : j < l.length
  · simp [List.getElem?_range, h, List.getElem?_eq_getElem h]
  · have h2 : l.length ≤ j := by omega
    simp [List.getElem?_eq_none h2]
    exact h2

theorem map_countKey_eq (elementMap : List Nat) (E L : Nat) :
    (List.range (E * L)).map (countKey elementMap)
      = (List.range E).flatMap (fun e =>
          (List.range L).map (fun d => elementMap.getD (L * e + d) 0)) := by
  have h : (List.range (E * L)).map (countKey elementMap)
      = ((List.range (E * L)).map (fun i => (i / L, i % L))).map
          (fun p => elementMap.getD (L * p.1 + p.2) 0) := by
    rw [List.map_map]
    apply List.map_congr_left
    intro i _
    simp only [Function.comp, countKey, Nat.div_add_mod]
  rw [h, ← range_flatMap_pairs, List.map_flatMap]
  simp only [List.map_map]
  rfl

theorem map_fillKey_eq (elementMap dofMap : List Nat) (E L : Nat) :
    (List.range (E * L)).map (fillKey elementMap dofMap L)
      = (List.range E).flatMap (fun e =>
          (List.range L).map (fun d => elementMap.getD (L * e + dofMap.getD d 0) 0)) := by
  have h : (List.range (E * L)).map (fillKey elementMap dofMap L)
      = ((List.range (E * L)).map (fun i => (i / L, i % L))).map
          (fun p => elementMap.getD (L * p.1 + dofMap.getD p.2 0) 0) := by
    rw [List.map_map]
    apply List.map_congr_left
    intro i _
    simp only [Function.comp, fillKey]
  rw [h, ← range_flatMap_pairs, List.map_flatMap]
  simp only [List.map_map]
  rfl

theorem keys_perm (elementMap dofMap : List Nat) (E L : Nat)
    (hperm : dofMap.Perm (List.range L)) :
    ((List.range (E * L)).map (fillKey elementMap dofMap L)).Perm
      ((List.range (E * L)).map (countKey elementMap)) := by
  rw [map_countKey_eq, map_fillKey_eq]
  apply List.Perm.flatMap_left
  intro e _
  have hlen : dofMap.length = L := by simpa using hperm.length_eq
  have h1 : (List.range L).map (fun d => elementMap.getD (L * e + dofMap.getD d 0) 0)
      = dofMap.map (fun d => elementMap.getD (L * e + d) 0) := by
    conv_rhs => rw [← map_getD_range dofMap, List.map_map, hlen]
    rfl
  rw [h1]
  exact hperm.map _

theorem countP_keys_eq (elementMap dofMap : List Nat) (E L : Nat)
    (hperm : dofMap.Perm (List.range L)) (p : Nat → Bool) :
    (List.range (E * L)).countP (fun i => p (countKey elementMap i))
      = (List.range (E * L)).countP (fun i => p (fillKey elementMap dofMap L i)) := by
  have h := (keys_perm elementMap dofMap E L hperm).countP_eq p
  rw [List.countP_map, List.countP_map] at h
  exact h.symm

theorem multiplicity_keys_eq (elementMap dofMap : List Nat) (E L : Nat)
    (hperm : dofMap.Perm (List.range L)) (g : Nat) :
    multiplicity (countKey elementMap) (E * L) g
      = multiplicity (fillKey elementMap dofMap L) (E * L) g :=
  countP_keys_eq elementMap dofMap E L hperm (fun k => decide (k = g))

theorem fillKey_lt (elementMap dofMap : List Nat) (E L N : Nat)
    (hperm : dofMap.Perm (List.range L)) (hconn : ∀ i, i < E * L → countKey elementMap i < N)
    (i : Nat) (hi : i < E * L) : fillKey elementMap dofMap L i < N := by
  have hmem : fillKey elementMap dofMap L i ∈
      (List.range (E * L)).map (countKey elementMap) :=
    (keys_perm elementMap dofMap E L hperm).subset
      (List.mem_map.mpr ⟨i, List.mem_range.mpr hi, rfl⟩)
  obtain ⟨k, hk, hk2⟩ := List.mem_map.mp hmem
  rw [← hk2]
  exact hconn k (List.mem_range.mp hk)

/-! ## The dof map, characterised -/

theorem countPass_flat (elementMap : List Nat) (E L : Nat) (offsets : List Nat) :
    countPass elementMap E L offsets
      = (List.range (E * L)).foldl (fun offs i =>
          offs.set (countKey elementMap i + 1) (offs.getD (countKey elementMap i + 1) 0 + 1))
          offsets := by
  have h := foldl_nested_range (fun offs e d =>
    offs.set (elementMap.getD (L * e + d) 0 + 1)
      (offs.getD (elementMap.getD (L * e + d) 0 + 1) 0 + 1)) E L offsets
  simp only [Nat.div_add_mod] at h
  exact h

theorem fillPass_flat (elementMap dofMap : List Nat) (E L : Nat) (st : List Nat × List Nat) :
    fillPass elementMap dofMap E L st
      = (List.range (E * L)).foldl (fun (st : List Nat × List Nat) i =>
          (st.1.set (fillKey elementMap dofMap L i)
              (st.1.getD (fillKey elementMap dofMap L i) 0 + 1),
            st.2.set (st.1.getD (fillKey elementMap dofMap L i) 0) i)) st := by
  have h := foldl_nested_range (fun (st : List Nat × List Nat) e d =>
    (st.1.set (elementMap.getD (L * e + dofMap.getD d 0) 0)
        (st.1.getD (elementMap.getD (L * e + dofMap.getD d 0) 0) 0 + 1),
      st.2.set (st.1.getD (elementMap.getD (L * e + dofMap.getD d 0) 0) 0) (L * e + d))) E L st
  simp only [Nat.div_add_mod] at h
  exact h

/-- The result of `SetupIntegratorData` on a well-formed connectivity: `offsets[g]` is
the number of flat indices filed under a dof below `g`, and slot `j` of the range of
`g` holds the `j`-th flat index filed under `g`. -/
theorem setup_spec (elementMap : List Nat) (el : Option (List Nat)) (E N L : Nat)
    (hconn : ∀ i, i < E * L → countKey elementMap i < N)
    (hperm : (selectDofMap el L).Perm (List.range L)) :
    (SetupIntegratorData elementMap el E N L).globalToLocalOffsets.length = N + 1 ∧
    (SetupIntegratorData elementMap el E N L).globalToLocalIndices.length = E * L ∧
    (∀ g, g ≤ N → (SetupIntegratorData elementMap el E N L).globalToLocalOffsets.getD g 0
        = startOf (fillKey elementMap (selectDofMap el L) L) (E * L) g) ∧
    (∀ g j, j < multiplicity (fillKey elementMap (selectDofMap el L) L) (E * L) g →
      (SetupIntegratorData elementMap el E N L).globalToLocalIndices.getD
          (startOf (fillKey elementMap (selectDofMap el L) L) (E * L) g + j) 0
        = (bucket (fillKey elementMap (selectDofMap el L) L) (E * L) g).getD j 0) := by
  have hkey2 := fillKey_lt elementMap (selectDofMap el L) E L N hperm hconn
  -- counting pass
  obtain ⟨c1, c2, c3⟩ := count_loop (countKey elementMap) N (zeroOffsets N)
    (by simp [zeroOffsets_eq]) (E * L) hconn
  rw [← countPass_flat] at c1 c2 c3
  -- prefix sum
  obtain ⟨a1, a2, _⟩ := aggregate_loop (countKey elementMap) (E * L) N
    (countPass elementMap E L (zeroOffsets N)) c1
    (by rw [c2]; simp [zeroOffsets_eq])
    (by intro g; rw [c3, zeroOffsets_eq]; simp) N (Nat.le_refl _)
  have a2k : ∀ g, g ≤ N →
      (aggregate N (countPass elementMap E L (zeroOffsets N))).getD g 0
        = startOf (fillKey elementMap (selectDofMap el L) L) (E * L) g := by
    intro g hg
    unfold aggregate
    rw [a2 g hg]
    exact countP_keys_eq elementMap (selectDofMap el L) E L hperm (fun k => decide (k < g))
  -- fill pass
  obtain ⟨f1, f2, f3, f4⟩ := fill_loop (fillKey elementMap (selectDofMap el L) L) (E * L) N
    hkey2 (aggregate N (countPass elementMap E L (zeroOffsets N)))
    (List.replicate (E * L) 0) a1 (by simp) a2k (E * L) (Nat.le_refl _)
    (fillPass elementMap (selectDofMap el L) E L
      (aggregate N (countPass elementMap E L (zeroOffsets N)), List.replicate (E * L) 0))
    (fillPass_flat _ _ _ _ _)
  -- shift back
  obtain ⟨s1, s2, _⟩ := shift_loop N (fillPass elementMap (selectDofMap el L) E L
      (aggregate N (countPass elementMap E L (zeroOffsets N)), List.replicate (E * L) 0)).1
  refine ⟨?_, f2, ?_, f4⟩
  · show (shiftBack N _).length = N + 1
    unfold shiftBack
    rw [List.length_set, s1, f1]
  · intro g hg
    show (shiftBack N _).getD g 0 = _
    unfold shiftBack
    rcases Nat.eq_zero_or_pos g with hz | hp
    · subst hz
      rw [getD_set_self _ _ _ _ (by rw [s1, f1]; omega), startOf_zero]
    · rw [getD_set_other _ _ _ _ _ (by omega), s2 g hp hg (by rw [f1]; omega),
        f3 (g - 1) (by omega)]
      have e : g = (g - 1) + 1 := by omega
      conv_rhs => rw [e, startOf_succ]

/-! ## Consequences of the characterisation -/

theorem slot_exists (key : Nat → Nat) (n N : Nat) (hkey : ∀ i < n, key i < N) (p : Nat)
    (hp : p < n) :
    ∃ g j, g < N ∧ j < multiplicity key n g ∧ p = startOf key n g + j := by
  have aux : ∀ M, p < startOf key n M →
      ∃ g j, g < M ∧ j < multiplicity key n g ∧ p = startOf key n g + j := by
    intro M
    induction M with
    | zero => intro h; rw [startOf_zero] at h; omega
    | succ M ih =>
      intro h
      by_cases hM : p < startOf key n M
      · obtain ⟨g, j, h1, h2, h3⟩ := ih hM
        exact ⟨g, j, by omega, h2, h3⟩
      · rw [startOf_succ] at h
        exact ⟨M, p - startOf key n M, by omega, by omega, by omega⟩
  exact aux N (by rw [startOf_top key n N hkey]; exact hp)

theorem bucket_getD_mem (key : Nat → Nat) (n g j : Nat) (hj : j < multiplicity key n g) :
    (bucket key n g).getD j 0 < n ∧ key ((bucket key n g).getD j 0) = g := by
  rw [← length_bucket] at hj
  rw [List.getD_eq_getElem _ _ hj]
  have hmem : (bucket key n g)[j] ∈ bucket key n g := List.getElem_mem hj
  unfold bucket at hmem
  rw [List.mem_filter, List.mem_range] at hmem
  exact ⟨hmem.1, by simpa using hmem.2⟩

theorem bucket_getD_lt (key : Nat → Nat) (n g j k : Nat) (hjk : j < k)
    (hk : k < multiplicity key n g) :
    (bucket key n g).getD j 0 < (bucket key n g).getD k 0 := by
  rw [← length_bucket] at hk
  rw [List.getD_eq_getElem _ _ hk, List.getD_eq_getElem _ _ (Nat.lt_trans hjk hk)]
  have hs : (bucket key n g).Pairwise (fun a b => a < b) :=
    (List.pairwise_lt_range n).filter _
  exact List.pairwise_iff_getElem.mp hs j k (Nat.lt_trans hjk hk) hk hjk

theorem bucket_getD_inj (key : Nat → Nat) (n g j k : Nat)
    (hj : j < multiplicity key n g) (hk : k < multiplicity key n g)
    (h : (bucket key n g).getD j 0 = (bucket key n g).getD k 0) : j = k := by
  rcases Nat.lt_trichotomy j k with h1 | h1 | h1
  · have := bucket_getD_lt key n g j k h1 hk; omega
  · exact h1
  · have := bucket_getD_lt key n g k j h1 hj; omega

theorem nodup_of_getD_inj (l : List Nat)
    (h : ∀ i j, i < l.length → j < l.length → l.getD i 0 = l.getD j 0 → i = j) : l.Nodup := by
  rw [List.nodup_iff_getElem?_ne_getElem?]
  intro i j hij hj heq
  have := h i j (by omega) hj (by simp [heq])
  omega

/-- A list that fills the ranges of all dofs with their buckets is a permutation of
the flat indices. -/
theorem bucketed_perm (key : Nat → Nat) (n N : Nat) (hkey : ∀ i < n, key i < N)
    (inds : List Nat) (hlen : inds.length = n)
    (h4 : ∀ g j, j < multiplicity key n g →
      inds.getD (startOf key n g + j) 0 = (bucket key n g).getD j 0) :
    inds.Perm (List.range n) := by
  have hnd : inds.Nodup := by
    apply nodup_of_getD_inj
    intro p q hp hq hpq
    obtain ⟨g, j, _, hj, rfl⟩ := slot_exists key n N hkey p (by omega)
    obtain ⟨g', j', _, hj', rfl⟩ := slot_exists key n N hkey q (by omega)
    rw [h4 g j hj, h4 g' j' hj'] at hpq
    have hg : g = g' := by
      have h1 := (bucket_getD_mem key n g j hj).2
      have h2 := (bucket_getD_mem key n g' j' hj').2
      rw [hpq] at h1
      omega
    subst hg
    rw [bucket_getD_inj key n g j j' hj hj' hpq]
  have hsub : inds ⊆ List.range n := by
    intro x hx
    obtain ⟨p, hp, rfl⟩ := List.getElem_of_mem hx
    obtain ⟨g, j, _, hj, hpe⟩ := slot_exists key n N hkey p (by omega)
    have h5 := h4 g j hj
    rw [← hpe, List.getD_eq_getElem _ _ hp] at h5
    rw [h5, List.mem_range]
    exact (bucket_getD_mem key n g j hj).1
  exact (List.subperm_of_subset hnd hsub).perm_of_length_le (by simp [hlen])

/-- The hypotheses on the inputs in the form used by the loop lemmas. -/
theorem wellformed_inputs (elementMap : List Nat) (el : Option (List Nat)) (E N L : Nat)
    (hlen : elementMap.length = E * L) (hconn : ∀ x ∈ elementMap, x < N)
    (hperm : ∀ m, el = some m → m.Perm (List.range L)) :
    (∀ i, i < E * L → countKey elementMap i < N) ∧
      (selectDofMap el L).Perm (List.range L) := by
  constructor
  · intro i hi
    unfold countKey
    rw [List.getD_eq_getElem _ _ (by omega)]
    exact hconn _ (List.getElem_mem _)
  · cases el with
    | none => rw [selectDofMap_none]
    | some m => exact hperm m rfl

/-- C1: for a connectivity table with all entries in `[0, N)` and a local reordering
map that is a permutation of `[0, L)` (the identity when the basis is not a
tensor-product one), the `indices` array built by `SetupIntegratorData` has length
`E * L` and is a permutation of `[0, E * L)`: every flat index occurs exactly once. -/
theorem indices_perm (elementMap : List Nat) (el : Option (List Nat)) (E N L : Nat)
    (hlen : elementMap.length = E * L) (hconn : ∀ x ∈ elementMap, x < N)
    (hperm : ∀ m, el = some m → m.Perm (List.range L)) :
    (SetupIntegratorData elementMap el E N L).globalToLocalIndices.length = E * L ∧
    (SetupIntegratorData elementMap el E N L).globalToLocalIndices.Perm (List.range (E * L)) ∧
    ∀ i, i < E * L →
      (SetupIntegratorData elementMap el E N L).globalToLocalIndices.count i = 1 := by
  obtain ⟨w1, w2⟩ := wellformed_inputs elementMap el E N L hlen hconn hperm
  obtain ⟨_, s2, _, s4⟩ := setup_spec elementMap el E N L w1 w2
  have hp := bucketed_perm (fillKey elementMap (selectDofMap el L) L) (E * L) N
    (fillKey_lt elementMap (selectDofMap el L) E L N w2 w1) _ s2 s4
  refine ⟨s2, hp, ?_⟩
  intro i hi
  rw [hp.count_eq]
  exact List.count_eq_one_of_mem (List.nodup_range _) (List.mem_range.mpr hi)

theorem indices_perm_witness :
    (SetupIntegratorData [0, 1, 1, 2] (some [1, 0]) 2 3 2).globalToLocalIndices.length = 2 * 2 ∧
    (SetupIntegratorData [0, 1, 1, 2] (some [1, 0]) 2 3 2).globalToLocalIndices.Perm
      (List.range (2 * 2)) ∧
    ∀ i, i < 2 * 2 →
      (SetupIntegratorData [0, 1, 1, 2] (some [1, 0]) 2 3 2).globalToLocalIndices.count i = 1 :=
  indices_perm [0, 1, 1, 2] (some [1, 0]) 2 3 2 (by decide) (by decide)
    (by intro m hm; cases hm; decide)

/-- C2: for a connectivity table with all entries in `[0, N)` and a local reordering
map that is a permutation of `[0, L)`, the `offsets` array left by
`SetupIntegratorData` after the final shift back has length `N + 1`, starts at
`offsets[0] = 0`, ends at `offsets[N] = E * L`, and is non-decreasing. -/
theorem offsets_shape (elementMap : List Nat) (el : Option (List Nat)) (E N L : Nat)
    (hlen : elementMap.length = E * L) (hconn : ∀ x ∈ elementMap, x < N)
    (hperm : ∀ m, el = some m → m.Perm (List.range L)) :
    (SetupIntegratorData elementMap el E N L).globalToLocalOffsets.length = N + 1 ∧
    (SetupIntegratorData elementMap el E N L).globalToLocalOffsets.getD 0 0 = 0 ∧
    (SetupIntegratorData elementMap el E N L).globalToLocalOffsets.getD N 0 = E * L ∧
    ∀ g, g < N →
      (SetupIntegratorData elementMap el E N L).globalToLocalOffsets.getD g 0
        ≤ (SetupIntegratorData elementMap el E N L).globalToLocalOffsets.getD (g + 1) 0 := by
  obtain ⟨w1, w2⟩ := wellformed_inputs elementMap el E N L hlen hconn hperm
  obtain ⟨s1, _, s3, _⟩ := setup_spec elementMap el E N L w1 w2
  refine ⟨s1, ?_, ?_, ?_⟩
  · rw [s3 0 (Nat.zero_le _), startOf_zero]
  · rw [s3 N (Nat.le_refl _)]
    exact startOf_top _ _ N (fillKey_lt elementMap (selectDofMap el L) E L N w2 w1)
  · intro g hg
    rw [s3 g (by omega), s3 (g + 1) (by omega)]
    exact startOf_mono _ _ (Nat.le_succ g)

theorem offsets_shape_witness :
    (SetupIntegratorData [0, 1, 1, 2] none 2 3 2).globalToLocalOffsets.length = 3 + 1 ∧
    (SetupIntegratorData [0, 1, 1, 2] none 2 3 2).globalToLocalOffsets.getD 0 0 = 0 ∧
    (SetupIntegratorData [0, 1, 1, 2] none 2 3 2).globalToLocalOffsets.getD 3 0 = 2 * 2 ∧
    ∀ g, g < 3 →
      (SetupIntegratorData [0, 1, 1, 2] none 2 3 2).globalToLocalOffsets.getD g 0
        ≤ (SetupIntegratorData [0, 1, 1, 2] none 2 3 2).globalToLocalOffsets.getD (g + 1) 0 :=
  offsets_shape [0, 1, 1, 2] none 2 3 2 (by decide) (by decide) (by intro m hm; cases hm)

/-! ## Gather and scatter over the dof map -/

/-- Reading `indices` over the range of dof `g` yields the bucket of `g`. -/
theorem segment_eq_bucket (key : Nat → Nat) (n N : Nat) (offs inds : List Nat)
    (h3 : ∀ g, g ≤ N → offs.getD g 0 = startOf key n g)
    (h4 : ∀ g j, j < multiplicity key n g →
      inds.getD (startOf key n g + j) 0 = (bucket key n g).getD j 0)
    (g : Nat) (hg : g < N) :
    (List.range' (offs.getD g 0) (offs.getD (g + 1) 0 - offs.getD g 0)).map
        (fun p => inds.getD p 0) = bucket key n g := by
  rw [h3 g (by omega), h3 (g + 1) (by omega), startOf_succ, Nat.add_sub_cancel_left]
  apply List.ext_getElem
  · rw [List.length_map, List.length_range', length_bucket]
  · intro j h1 h2
    rw [List.length_map, List.length_range'] at h1
    rw [List.getElem_map, List.getElem_range', Nat.one_mul, h4 g j h1,
      List.getD_eq_getElem _ _ h2]

theorem foldl_set_fun {α : Type} (f : Nat → α) (l : List Nat) (loc : List α) :
    (l.foldl (fun loc i => loc.set i (f i)) loc).length = loc.length ∧
    ∀ q d, (l.foldl (fun loc i => loc.set i (f i)) loc).getD q d
      = if q ∈ l ∧ q < loc.length then f q else loc.getD q d := by
  induction l generalizing loc with
  | nil => simp
  | cons a l ih =>
    obtain ⟨h1, h2⟩ := ih (loc.set a (f a))
    simp only [List.foldl_cons]
    refine ⟨by rw [h1, List.length_set], ?_⟩
    intro q d
    rw [h2, List.length_set]
    by_cases hq : q ∈ l ∧ q < loc.length
    · have : q ∈ a :: l ∧ q < loc.length := ⟨List.mem_cons_of_mem _ hq.1, hq.2⟩
      rw [if_pos hq, if_pos this]
    · rw [if_neg hq]
      by_cases ha : a = q
      · subst ha
        by_cases hlt : a < loc.length
        · rw [getD_set_self _ _ _ _ hlt, if_pos ⟨List.mem_cons_self _ _, hlt⟩]
        · have : ¬ (a ∈ a :: l ∧ a < loc.length) := fun h => hlt h.2
          rw [if_neg this]
          have hle : loc.length ≤ a := by omega
          simp [List.getElem?_eq_none, hle]
      · rw [getD_set_other _ _ _ _ _ ha]
        have : ¬ (q ∈ a :: l ∧ q < loc.length) := by
          intro h
          rcases List.mem_cons.mp h.1 with h5 | h5
          · exact ha h5.symm
          · exact hq ⟨h5, h.2⟩
        rw [if_neg this]

theorem foldl_add_const (h : Nat → Int) (c : Int) (l : List Nat) (a : Int)
    (hc : ∀ i ∈ l, h i = c) :
    l.foldl (fun acc i => acc + h i) a = a + (l.length : Int) * c := by
  induction l generalizing a with
  | nil => simp
  | cons b l ih =>
    simp only [List.foldl_cons, List.length_cons]
    rw [ih _ (fun i hi => hc i (List.mem_cons_of_mem _ hi)), hc b (List.mem_cons_self _ _)]
    push_cast
    ring

/-- The gather broadcasts: after `VectorExtract`, the local entry at flat index `i`
holds the global entry of the dof that `i` is filed under. -/
theorem extract_getD (key : Nat → Nat) (n N : Nat) (hkey : ∀ i < n, key i < N)
    (offs inds : List Nat)
    (hseg : ∀ g, g < N →
      (List.range' (offs.getD g 0) (offs.getD (g + 1) 0 - offs.getD g 0)).map
        (fun p => inds.getD p 0) = bucket key n g)
    (v lx0 : List Int) (hlx : lx0.length = n) (i : Nat) (hi : i < n) :
    (vectorExtractKernel N offs inds v lx0).getD i 0 = v.getD (key i) 0 := by
  have hflat : vectorExtractKernel N offs inds v lx0
      = (List.range N).foldl (fun loc g =>
          (bucket key n g).foldl (fun loc i => loc.set i (v.getD g 0)) loc) lx0 := by
    unfold vectorExtractKernel
    apply List.foldl_ext
    intro loc g hg
    rw [← hseg g (List.mem_range.mp hg), List.foldl_map]
  have aux : ∀ G, G ≤ N →
      ((List.range G).foldl (fun loc g =>
          (bucket key n g).foldl (fun loc i => loc.set i (v.getD g 0)) loc) lx0).length = n ∧
      ∀ i, i < n → ((List.range G).foldl (fun loc g =>
          (bucket key n g).foldl (fun loc i => loc.set i (v.getD g 0)) loc) lx0).getD i 0
        = if key i < G then v.getD (key i) 0 else lx0.getD i 0 := by
    intro G
    induction G with
    | zero => intro _; simp [hlx]
    | succ G ih =>
      intro hG
      obtain ⟨a1, a2⟩ := ih (by omega)
      rw [List.range_succ, List.foldl_append]
      simp only [List.foldl_cons, List.foldl_nil]
      obtain ⟨b1, b2⟩ := foldl_set_fun (fun _ => v.getD G 0) (bucket key n G)
        ((List.range G).foldl (fun loc g =>
          (bucket key n g).foldl (fun loc i => loc.set i (v.getD g 0)) loc) lx0)
      refine ⟨by rw [b1, a1], ?_⟩
      intro i hi
      rw [b2, a1, a2 i hi]
      by_cases hk : key i = G
      · have hm : i ∈ bucket key n G := by
          unfold bucket
          rw [List.mem_filter, List.mem_range]
          exact ⟨hi, by simpa using hk⟩
        rw [if_pos ⟨hm, hi⟩, if_pos (by omega), hk]
      · have hm : ¬ (i ∈ bucket key n G ∧ i < n) := by
          intro h
          have h5 := h.1
          unfold bucket at h5
          rw [List.mem_filter] at h5
          exact hk (by simpa using h5.2)
        rw [if_neg hm]
        by_cases hlt : key i < G
        · rw [if_pos hlt, if_pos (by omega)]
        · rw [if_neg hlt, if_neg (by omega)]
  rw [hflat, (aux N (Nat.le_refl _)).2 i hi, if_pos (hkey i hi)]

/-- The scatter adds: after `VectorAssemble`, the global entry of dof `g` is the sum
of the local entries over the bucket of `g`. -/
theorem assemble_getD (key : Nat → Nat) (n N : Nat) (offs inds : List Nat)
    (hseg : ∀ g, g < N →
      (List.range' (offs.getD g 0) (offs.getD (g + 1) 0 - offs.getD g 0)).map
        (fun p => inds.getD p 0) = bucket key n g)
    (loc y0 : List Int) (hy : y0.length = N) (g : Nat) (hg : g < N) :
    (vectorAssembleKernel N offs inds loc y0).getD g 0
      = (bucket key n g).foldl (fun acc i => acc + loc.getD i 0) 0 := by
  unfold vectorAssembleKernel
  rw [List.getD_eq_getElem?_getD, getElem?_foldl_set_range, if_pos hg, if_pos (by omega),
    ← hseg g hg, List.foldl_map]
  rfl

/-- C3: gather/scatter adjoint law, scalar case.  With the `offsets`/`indices` built
by `SetupIntegratorData` from a well-formed connectivity, for every global vector `v`,
every content of the scratch vector and of the output, and every dof `g < N`,
`Assemble(Extract(v))[g] = v[g] * (offsets[g+1] - offsets[g])`; and
`OccaBilinearForm::Mult` of a form with no integrators registered returns that
vector. -/
theorem gather_scatter_adjoint (elementMap : List Nat) (el : Option (List Nat)) (E N L : Nat)
    (hlen : elementMap.length = E * L) (hconn : ∀ x ∈ elementMap, x < N)
    (hperm : ∀ m, el = some m → m.Perm (List.range L))
    (ks : List (List Int → List Int)) (v lx0 y0 : List Int) (hlx : lx0.length = E * L)
    (hy : y0.length = N) (g : Nat) (hg : g < N) :
    (OccaBilinearForm.VectorAssemble
        { numDofs := N
          globalToLocalOffsets := (SetupIntegratorData elementMap el E N L).globalToLocalOffsets
          globalToLocalIndices := (SetupIntegratorData elementMap el E N L).globalToLocalIndices
          localX := lx0
          integrators := ks }
        (OccaBilinearForm.VectorExtract
          { numDofs := N
            globalToLocalOffsets := (SetupIntegratorData elementMap el E N L).globalToLocalOffsets
            globalToLocalIndices := (SetupIntegratorData elementMap el E N L).globalToLocalIndices
            localX := lx0
            integrators := ks } v lx0) y0).getD g 0
      = v.getD g 0 *
          (((SetupIntegratorData elementMap el E N L).globalToLocalOffsets.getD (g + 1) 0 : Int)
            - ((SetupIntegratorData elementMap el E N L).globalToLocalOffsets.getD g 0 : Int)) ∧
    (OccaBilinearForm.Mult
        { numDofs := N
          globalToLocalOffsets := (SetupIntegratorData elementMap el E N L).globalToLocalOffsets
          globalToLocalIndices := (SetupIntegratorData elementMap el E N L).globalToLocalIndices
          localX := lx0
          integrators := [] } v y0).2.getD g 0
      = v.getD g 0 *
          (((SetupIntegratorData elementMap el E N L).globalToLocalOffsets.getD (g + 1) 0 : Int)
            - ((SetupIntegratorData elementMap el E N L).globalToLocalOffsets.getD g 0 : Int)) := by
  obtain ⟨w1, w2⟩ := wellformed_inputs elementMap el E N L hlen hconn hperm
  obtain ⟨_, _, s3, s4⟩ := setup_spec elementMap el E N L w1 w2
  have hkey := fillKey_lt elementMap (selectDofMap el L) E L N w2 w1
  have hseg := segment_eq_bucket (fillKey elementMap (selectDofMap el L) L) (E * L) N _ _ s3 s4
  have key : (vectorAssembleKernel N
        (SetupIntegratorData elementMap el E N L).globalToLocalOffsets
        (SetupIntegratorData elementMap el E N L).globalToLocalIndices
        (vectorExtractKernel N
          (SetupIntegratorData elementMap el E N L).globalToLocalOffsets
          (SetupIntegratorData elementMap el E N L).globalToLocalIndices v lx0) y0).getD g 0
      = v.getD g 0 *
          (((SetupIntegratorData elementMap el E N L).globalToLocalOffsets.getD (g + 1) 0 : Int)
            - ((SetupIntegratorData elementMap el E N L).globalToLocalOffsets.getD g 0 : Int)) := by
    rw [assemble_getD _ (E * L) N _ _ hseg _ y0 hy g hg,
      foldl_add_const _ (v.getD g 0) _ 0, length_bucket, s3 g (by omega), s3 (g + 1) (by omega),
      startOf_succ]
    · push_cast
      ring
    · intro i hi
      have hi2 := hi
      unfold bucket at hi2
      rw [List.mem_filter, List.mem_range] at hi2
      rw [extract_getD _ (E * L) N hkey _ _ hseg v lx0 hlx i hi2.1]
      have : fillKey elementMap (selectDofMap el L) L i = g := by simpa using hi2.2
      rw [this]
  exact ⟨key, key⟩

theorem gather_scatter_adjoint_witness :
    (OccaBilinearForm.VectorAssemble
        { numDofs := 3
          globalToLocalOffsets := (SetupIntegratorData [0, 1, 1, 2] none 2 3 2).globalToLocalOffsets
          globalToLocalIndices := (SetupIntegratorData [0, 1, 1, 2] none 2 3 2).globalToLocalIndices
          localX := [0, 0, 0, 0]
          integrators := [] }
        (OccaBilinearForm.VectorExtract
          { numDofs := 3
            globalToLocalOffsets :=
              (SetupIntegratorData [0, 1, 1, 2] none 2 3 2).globalToLocalOffsets
            globalToLocalIndices :=
              (SetupIntegratorData [0, 1, 1, 2] none 2 3 2).globalToLocalIndices
            localX := [0, 0, 0, 0]
            integrators := [] } [5, 7, 11] [0, 0, 0, 0]) [0, 0, 0]).getD 1 0
      = ([5, 7, 11] : List Int).getD 1 0 *
          (((SetupIntegratorData [0, 1, 1, 2] none 2 3 2).globalToLocalOffsets.getD (1 + 1) 0 : Int)
            - ((SetupIntegratorData [0, 1, 1, 2] none 2 3 2).globalToLocalOffsets.getD 1 0 : Int)) ∧
    (OccaBilinearForm.Mult
        { numDofs := 3
          globalToLocalOffsets := (SetupIntegratorData [0, 1, 1, 2] none 2 3 2).globalToLocalOffsets
          globalToLocalIndices := (SetupIntegratorData [0, 1, 1, 2] none 2 3 2).globalToLocalIndices
          localX := [0, 0, 0, 0]
          integrators := [] } [5, 7, 11] [0, 0, 0]).2.getD 1 0
      = ([5, 7, 11] : List Int).getD 1 0 *
          (((SetupIntegratorData [0, 1, 1, 2] none 2 3 2).globalToLocalOffsets.getD (1 + 1) 0 : Int)
            - ((SetupIntegratorData [0, 1, 1, 2] none 2 3 2).globalToLocalOffsets.getD 1 0 : Int)) :=
  gather_scatter_adjoint [0, 1, 1, 2] none 2 3 2 (by decide) (by decide)
    (by intro m hm; cases hm) [] [5, 7, 11] [0, 0, 0, 0] [0, 0, 0] (by decide) (by decide) 1
    (by decide)

/-! ## Constrained operator -/

theorem ext_getD (l1 l2 : List Int) (hlen : l1.length = l2.length)
    (h : ∀ i, i < l1.length → l1.getD i 0 = l2.getD i 0) : l1 = l2 := by
  apply List.ext_getElem hlen
  intro i h1 h2
  have := h i h1
  rwa [List.getD_eq_getElem _ _ h1, List.getD_eq_getElem _ _ h2] at this

theorem getD_map_range (f : Nat → Int) (n i : Nat) :
    ((List.range n).map f).getD i 0 = if i < n then f i else 0 := by
  by_cases h : i < n
  · rw [if_pos h, List.getD_eq_getElem _ _ (by simpa using h)]
    simp
  · rw [if_neg h]
    have : n ≤ i := by omega
    simp [List.getElem?_eq_none, this]

theorem map_dofs_spec (v0 v1 : List Int) (v2 : List Nat) :
    (map_dofs v2.length v0 v1 v2).length = v0.length ∧
    ∀ q, (map_dofs v2.length v0 v1 v2).getD q 0
      = if q ∈ v2 ∧ q < v0.length then v1.getD q 0 else v0.getD q 0 := by
  have hflat : map_dofs v2.length v0 v1 v2
      = v2.foldl (fun v0 idx => v0.set idx (v1.getD idx 0)) v0 := by
    unfold map_dofs
    conv_rhs => rw [← map_getD_range v2, List.foldl_map]
  rw [hflat]
  obtain ⟨h1, h2⟩ := foldl_set_fun (fun idx => v1.getD idx 0) v2 v0
  exact ⟨h1, fun q => h2 q 0⟩

theorem clear_dofs_spec (v0 : List Int) (v1 : List Nat) :
    (clear_dofs v1.length v0 v1).length = v0.length ∧
    ∀ q, (clear_dofs v1.length v0 v1).getD q 0
      = if q ∈ v1 ∧ q < v0.length then 0 else v0.getD q 0 := by
  have hflat : clear_dofs v1.length v0 v1 = v1.foldl (fun v0 idx => v0.set idx 0) v0 := by
    unfold clear_dofs
    conv_rhs => rw [← map_getD_range v1, List.foldl_map]
  rw [hflat]
  obtain ⟨h1, h2⟩ := foldl_set_fun (fun _ => (0 : Int)) v1 v0
  exact ⟨h1, fun q => h2 q 0⟩

theorem length_zeroAtConstraints (cl : List Nat) (x : List Int) :
    (zeroAtConstraints cl x).length = x.length := by
  simp [zeroAtConstraints]

theorem getD_zeroAtConstraints (cl : List Nat) (x : List Int) (i : Nat) :
    (zeroAtConstraints cl x).getD i 0 = if i ∈ cl then 0 else x.getD i 0 := by
  unfold zeroAtConstraints
  rw [getD_map_range]
  by_cases h : i < x.length
  · rw [if_pos h]
  · rw [if_neg h]
    have : x.length ≤ i := by omega
    by_cases hc : i ∈ cl <;> simp [hc, List.getElem?_eq_none, this]

theorem length_onlyAtConstraints (cl : List Nat) (n : Nat) (x : List Int) :
    (onlyAtConstraints cl n x).length = n := by
  simp [onlyAtConstraints]

theorem getD_onlyAtConstraints (cl : List Nat) (n : Nat) (x : List Int) (i : Nat)
    (hi : i < n) :
    (onlyAtConstraints cl n x).getD i 0 = if i ∈ cl then x.getD i 0 else 0 := by
  unfold onlyAtConstraints
  rw [getD_map_range, if_pos hi]

theorem clear_dofs_eq (cl : List Nat) (x : List Int) :
    clear_dofs cl.length x cl = zeroAtConstraints cl x := by
  obtain ⟨h1, h2⟩ := clear_dofs_spec x cl
  apply ext_getD _ _ (by rw [h1, length_zeroAtConstraints])
  intro i hi
  rw [h1] at hi
  rw [h2, getD_zeroAtConstraints]
  by_cases hc : i ∈ cl
  · rw [if_pos ⟨hc, hi⟩, if_pos hc]
  · rw [if_neg (fun h => hc h.1), if_neg hc]

theorem scratch_w_eq (cl : List Nat) (n : Nat) (w x : List Int) (hw : w.length = n) :
    map_dofs cl.length (assignZero w) x cl = onlyAtConstraints cl n x := by
  obtain ⟨h1, h2⟩ := map_dofs_spec (assignZero w) x cl
  have hz : (assignZero w).length = n := by simp [assignZero, hw]
  apply ext_getD _ _ (by rw [h1, hz, length_onlyAtConstraints])
  intro i hi
  rw [h1, hz] at hi
  rw [h2, hz, getD_onlyAtConstraints _ _ _ _ hi]
  by_cases hc : i ∈ cl
  · rw [if_pos ⟨hc, hi⟩, if_pos hc]
  · rw [if_neg (fun h => hc h.1), if_neg hc]
    unfold assignZero
    rw [List.getD_eq_getElem _ _ (by simpa [hw] using hi)]
    simp

theorem setup_list (A : Operator) (cl : List Nat) :
    (OccaConstrainedOperator.setup A cl).constraint_list = cl := by
  cases cl <;> simp [OccaConstrainedOperator.setup]

theorem mult_nonempty (A : Operator) (cl : List Nat) (x : List Int) (hne : cl ≠ []) :
    ((OccaConstrainedOperator.setup A cl).Mult x).y
      = map_dofs cl.length (A.Mult (zeroAtConstraints cl x)) x cl := by
  have h0 : ¬ (OccaConstrainedOperator.setup A cl).constraint_indices = 0 := by
    simpa [OccaConstrainedOperator.setup] using hne
  unfold OccaConstrainedOperator.Mult
  rw [if_neg h0, setup_list]
  show map_dofs cl.length (A.Mult (clear_dofs cl.length x cl)) x cl = _
  rw [clear_dofs_eq]

theorem eliminate_nonempty (A : Operator) (cl : List Nat) (x b : List Int) (hne : cl ≠ []) :
    ((OccaConstrainedOperator.setup A cl).EliminateRHS x b).y
      = map_dofs cl.length (subAssign b (A.Mult (onlyAtConstraints cl A.height x))) x cl := by
  have h0 : ¬ (OccaConstrainedOperator.setup A cl).constraint_indices = 0 := by
    simpa [OccaConstrainedOperator.setup] using hne
  unfold OccaConstrainedOperator.EliminateRHS
  rw [if_neg h0, setup_list]
  show map_dofs cl.length (subAssign b (A.Mult
    (map_dofs cl.length (assignZero (List.replicate A.height 0)) x cl))) x cl = _
  rw [scratch_w_eq cl A.height _ x (by simp)]

theorem mult_empty (A : Operator) (x : List Int) :
    ((OccaConstrainedOperator.setup A []).Mult x).y = A.Mult x := rfl

theorem eliminate_empty (A : Operator) (x b : List Int) :
    ((OccaConstrainedOperator.setup A []).EliminateRHS x b).y = b := rfl

theorem getD_subAssign (b z : List Int) (i : Nat) (hi : i < b.length) :
    (subAssign b z).getD i 0 = b.getD i 0 - z.getD i 0 := by
  unfold subAssign
  rw [getD_map_range, if_pos hi]

theorem length_subAssign (b z : List Int) : (subAssign b z).length = b.length := by
  simp [subAssign]

theorem length_vecAdd (u v : List Int) (n : Nat) (hu : u.length = n) (hv : v.length = n) :
    (vecAdd u v).length = n := by
  simp [vecAdd, hu, hv]

theorem getD_vecAdd (u v : List Int) (i : Nat) (hu : i < u.length) (hv : i < v.length) :
    (vecAdd u v).getD i 0 = u.getD i 0 + v.getD i 0 := by
  have h : i < (vecAdd u v).length := by
    simp only [vecAdd, List.length_zipWith]
    omega
  rw [List.getD_eq_getElem _ _ h, List.getD_eq_getElem _ _ hu, List.getD_eq_getElem _ _ hv]
  simp [vecAdd]

/-- C4: `OccaConstrainedOperator::Mult` with a non-empty constraint list whose indices
are in range (duplicates allowed), for any inner operator `A` that returns vectors of
its height, linear or not, and any `x`: `Mult(x)[c] = x[c]` on every constrained index
`c`, and `Mult(x)[f] = (A z)[f]` on every index `f` outside the list, where `z` is `x`
with the constrained entries set to zero. -/
theorem constrained_mult_rows (A : Operator) (cl : List Nat) (x : List Int) (hne : cl ≠ [])
    (hrange : ∀ c ∈ cl, c < A.height)
    (hA : ∀ u : List Int, u.length = A.width → (A.Mult u).length = A.height)
    (hx : x.length = A.width) :
    (∀ c ∈ cl, ((OccaConstrainedOperator.setup A cl).Mult x).y.getD c 0 = x.getD c 0) ∧
    (∀ f, f ∉ cl → ((OccaConstrainedOperator.setup A cl).Mult x).y.getD f 0
        = (A.Mult (zeroAtConstraints cl x)).getD f 0) ∧
    (zeroAtConstraints cl x).length = x.length ∧
    (∀ i, (zeroAtConstraints cl x).getD i 0 = if i ∈ cl then 0 else x.getD i 0) := by
  rw [mult_nonempty A cl x hne]
  obtain ⟨_, h2⟩ := map_dofs_spec (A.Mult (zeroAtConstraints cl x)) x cl
  have hlen : (A.Mult (zeroAtConstraints cl x)).length = A.height :=
    hA _ (by rw [length_zeroAtConstraints, hx])
  refine ⟨?_, ?_, length_zeroAtConstraints cl x, getD_zeroAtConstraints cl x⟩
  · intro c hc
    rw [h2, if_pos ⟨hc, by rw [hlen]; exact hrange c hc⟩]
  · intro f hf
    rw [h2, if_neg (fun h => hf h.1)]

theorem constrained_mult_rows_witness :
    (∀ c ∈ [1, 1], ((OccaConstrainedOperator.setup
        { height := 3, width := 3, Mult := fun u => u.map (fun a => a * a + 1),
          MultTranspose := fun u => u } [1, 1]).Mult [2, 3, 4]).y.getD c 0
          = ([2, 3, 4] : List Int).getD c 0) ∧
    (∀ f, f ∉ [1, 1] → ((OccaConstrainedOperator.setup
        { height := 3, width := 3, Mult := fun u => u.map (fun a => a * a + 1),
          MultTranspose := fun u => u } [1, 1]).Mult [2, 3, 4]).y.getD f 0
          = ((fun u : List Int => u.map (fun a => a * a + 1))
              (zeroAtConstraints [1, 1] [2, 3, 4])).getD f 0) ∧
    (zeroAtConstraints [1, 1] [2, 3, 4]).length = ([2, 3, 4] : List Int).length ∧
    (∀ i, (zeroAtConstraints [1, 1] [2, 3, 4]).getD i 0
        = if i ∈ [1, 1] then 0 else ([2, 3, 4] : List Int).getD i 0) :=
  constrained_mult_rows
    { height := 3, width := 3, Mult := fun u => u.map (fun a => a * a + 1),
      MultTranspose := fun u => u } [1, 1] [2, 3, 4] (by decide) (by decide)
    (by intro u hu; simpa using hu) (by decide)

/-- C5: `OccaConstrainedOperator::EliminateRHS` with a non-empty constraint list whose
indices are in range, for any inner operator `A`, any `x` and any `b` of the
operator height: afterwards `b[c] = x[c]` on every constrained index `c`, and on every
free index `f` the new `b[f]` is the old `b[f]` minus `(A w)[f]`, where `w` is `x` on
the constrained indices and zero elsewhere; `x` is left as it was. -/
theorem eliminate_rhs_rows (A : Operator) (cl : List Nat) (x b : List Int) (hne : cl ≠ [])
    (hrange : ∀ c ∈ cl, c < A.height) (hb : b.length = A.height) :
    (∀ c ∈ cl, ((OccaConstrainedOperator.setup A cl).EliminateRHS x b).y.getD c 0
        = x.getD c 0) ∧
    (∀ f, f < A.height → f ∉ cl →
      ((OccaConstrainedOperator.setup A cl).EliminateRHS x b).y.getD f 0
        = b.getD f 0 - (A.Mult (onlyAtConstraints cl A.height x)).getD f 0) ∧
    (onlyAtConstraints cl A.height x).length = A.height ∧
    (∀ i, i < A.height →
      (onlyAtConstraints cl A.height x).getD i 0 = if i ∈ cl then x.getD i 0 else 0) ∧
    ((OccaConstrainedOperator.setup A cl).EliminateRHS x b).x = x := by
  have hx : ((OccaConstrainedOperator.setup A cl).EliminateRHS x b).x = x := by
    unfold OccaConstrainedOperator.EliminateRHS
    split <;> rfl
  rw [eliminate_nonempty A cl x b hne]
  obtain ⟨_, h2⟩ := map_dofs_spec
    (subAssign b (A.Mult (onlyAtConstraints cl A.height x))) x cl
  refine ⟨?_, ?_, length_onlyAtConstraints _ _ _, getD_onlyAtConstraints cl A.height x, hx⟩
  · intro c hc
    rw [h2, if_pos ⟨hc, by rw [length_subAssign, hb]; exact hrange c hc⟩]
  · intro f hf hfc
    rw [h2, if_neg (fun h => hfc h.1), getD_subAssign _ _ _ (by omega)]

theorem eliminate_rhs_rows_witness :
    (∀ c ∈ [2, 0, 2], ((OccaConstrainedOperator.setup
        { height := 3, width := 3, Mult := fun u => u.map (fun a => a * a + 1),
          MultTranspose := fun u => u } [2, 0, 2]).EliminateRHS [2, 3, 4] [10, 20, 30]).y.getD c 0
          = ([2, 3, 4] : List Int).getD c 0) ∧
    (∀ f, f < 3 → f ∉ [2, 0, 2] → ((OccaConstrainedOperator.setup
        { height := 3, width := 3, Mult := fun u => u.map (fun a => a * a + 1),
          MultTranspose := fun u => u } [2, 0, 2]).EliminateRHS [2, 3, 4] [10, 20, 30]).y.getD f 0
          = ([10, 20, 30] : List Int).getD f 0
            - ((fun u : List Int => u.map (fun a => a * a + 1))
                (onlyAtConstraints [2, 0, 2] 3 [2, 3, 4])).getD f 0) ∧
    (onlyAtConstraints [2, 0, 2] 3 [2, 3, 4]).length = 3 ∧
    (∀ i, i < 3 → (onlyAtConstraints [2, 0, 2] 3 [2, 3, 4]).getD i 0
        = if i ∈ [2, 0, 2] then ([2, 3, 4] : List Int).getD i 0 else 0) ∧
    ((OccaConstrainedOperator.setup
        { height := 3, width := 3, Mult := fun u => u.map (fun a => a * a + 1),
          MultTranspose := fun u => u } [2, 0, 2]).EliminateRHS [2, 3, 4] [10, 20, 30]).x
      = [2, 3, 4] :=
  eliminate_rhs_rows
    { height := 3, width := 3, Mult := fun u => u.map (fun a => a * a + 1),
      MultTranspose := fun u => u } [2, 0, 2] [2, 3, 4] [10, 20, 30] (by decide) (by decide)
    (by decide)

/-- C7: empty-constraint fast path.  With a constraint list of length zero, for any
inner operator `A` (no linearity, no `A 0 = 0` assumed), `Mult(x)` is `A x` for every
`x` and `EliminateRHS(x, b)` leaves `b` as it was for every `x` and `b`. -/
theorem empty_constraints_fast_path (A : Operator) (x b : List Int) :
    ((OccaConstrainedOperator.setup A []).Mult x).y = A.Mult x ∧
    ((OccaConstrainedOperator.setup A []).EliminateRHS x b).y = b :=
  ⟨mult_empty A x, eliminate_empty A x b⟩

/-- Splitting `x` into its free part and its constrained part: when `x` carries the
prescribed values on the constrained indices, the two scratch vectors add up to `x`. -/
theorem split_at_constraints (cl : List Nat) (n : Nat) (x x0 : List Int) (hx : x.length = n)
    (hc : ∀ c ∈ cl, x.getD c 0 = x0.getD c 0) :
    vecAdd (zeroAtConstraints cl x) (onlyAtConstraints cl n x0) = x := by
  have hz : (zeroAtConstraints cl x).length = n := by rw [length_zeroAtConstraints, hx]
  have hw : (onlyAtConstraints cl n x0).length = n := length_onlyAtConstraints _ _ _
  apply ext_getD _ _ (by rw [length_vecAdd _ _ n hz hw, hx])
  intro i hi
  rw [length_vecAdd _ _ n hz hw] at hi
  rw [getD_vecAdd _ _ _ (by omega) (by omega), getD_zeroAtConstraints,
    getD_onlyAtConstraints _ _ _ _ hi]
  by_cases h : i ∈ cl
  · rw [if_pos h, if_pos h, hc i h]; omega
  · rw [if_neg h, if_neg h]; omega

/-- C6: algebraic consistency of elimination.  Let `A` be additive on vectors of its
height (in particular linear) and return vectors of its height, and let `b'` be the
result of `EliminateRHS(x0, b)`.  Then for every `x`, with the same constraint list,
`Mult(x) = b'` if and only if `x[c] = x0[c]` on every constrained index `c` and
`(A x)[f] = b[f]` on every free index `f`. -/
theorem elimination_consistent (A : Operator) (cl : List Nat) (x0 b x : List Int)
    (hA : ∀ u : List Int, u.length = A.height → (A.Mult u).length = A.height)
    (hadd : ∀ u v : List Int, u.length = A.height → v.length = A.height →
      A.Mult (vecAdd u v) = vecAdd (A.Mult u) (A.Mult v))
    (hrange : ∀ c ∈ cl, c < A.height) (hb : b.length = A.height) (hx : x.length = A.height) :
    ((OccaConstrainedOperator.setup A cl).Mult x).y
        = ((OccaConstrainedOperator.setup A cl).EliminateRHS x0 b).y ↔
      (∀ c ∈ cl, x.getD c 0 = x0.getD c 0) ∧
      (∀ f, f < A.height → f ∉ cl → (A.Mult x).getD f 0 = b.getD f 0) := by
  by_cases hne : cl = []
  · subst hne
    rw [mult_empty A x, eliminate_empty A x0 b]
    constructor
    · intro h
      refine ⟨by simp, ?_⟩
      intro f _ _
      rw [h]
    · intro h
      apply ext_getD _ _ (by rw [hA x hx, hb])
      intro i hi
      rw [hA x hx] at hi
      exact h.2 i hi (by simp)
  · rw [mult_nonempty A cl x hne, eliminate_nonempty A cl x0 b hne]
    obtain ⟨m1, m2⟩ := map_dofs_spec (A.Mult (zeroAtConstraints cl x)) x cl
    obtain ⟨e1, e2⟩ := map_dofs_spec
      (subAssign b (A.Mult (onlyAtConstraints cl A.height x0))) x0 cl
    have hz : (zeroAtConstraints cl x).length = A.height := by
      rw [length_zeroAtConstraints, hx]
    have hw : (onlyAtConstraints cl A.height x0).length = A.height :=
      length_onlyAtConstraints _ _ _
    have hAz := hA _ hz
    have hAw := hA _ hw
    have hsum : (∀ c ∈ cl, x.getD c 0 = x0.getD c 0) → ∀ f, f < A.height →
        (A.Mult x).getD f 0 = (A.Mult (zeroAtConstraints cl x)).getD f 0
          + (A.Mult (onlyAtConstraints cl A.height x0)).getD f 0 := by
      intro hc f hf
      have hsplit := split_at_constraints cl A.height x x0 hx hc
      rw [← getD_vecAdd _ _ _ (by omega) (by omega), ← hadd _ _ hz hw, hsplit]
    have hcon : map_dofs cl.length (A.Mult (zeroAtConstraints cl x)) x cl
          = map_dofs cl.length (subAssign b (A.Mult (onlyAtConstraints cl A.height x0))) x0 cl →
        ∀ c ∈ cl, x.getD c 0 = x0.getD c 0 := by
      intro h c hc
      have h5 := congrArg (fun l => l.getD c 0) h
      simp only at h5
      rw [m2, e2, if_pos ⟨hc, by rw [hAz]; exact hrange c hc⟩,
        if_pos ⟨hc, by rw [length_subAssign, hb]; exact hrange c hc⟩] at h5
      exact h5
    constructor
    · intro h
      have hc := hcon h
      refine ⟨hc, ?_⟩
      intro f hf hfc
      have h5 := congrArg (fun l => l.getD f 0) h
      simp only at h5
      rw [m2, e2, if_neg (fun h => hfc h.1), if_neg (fun h => hfc h.1),
        getD_subAssign _ _ _ (by omega)] at h5
      rw [hsum hc f hf, h5]
      omega
    · intro h
      apply ext_getD _ _ (by rw [m1, e1, hAz, length_subAssign, hb])
      intro i hi
      rw [m1, hAz] at hi
      rw [m2, e2]
      by_cases hic : i ∈ cl
      · rw [if_pos ⟨hic, by omega⟩, if_pos ⟨hic, by rw [length_subAssign, hb]; exact hi⟩]
        exact h.1 i hic
      · rw [if_neg (fun h => hic h.1), if_neg (fun h => hic h.1),
          getD_subAssign _ _ _ (by omega)]
        have h6 := hsum h.1 i hi
        have h7 := h.2 i hi hic
        omega

theorem elimination_consistent_witness :
    ((OccaConstrainedOperator.setup
        { height := 2, width := 2, Mult := fun u => u, MultTranspose := fun u => u }
        [0]).Mult [5, 2]).y
      = ((OccaConstrainedOperator.setup
        { height := 2, width := 2, Mult := fun u => u, MultTranspose := fun u => u }
        [0]).EliminateRHS [5, 0] [1, 2]).y ↔
      (∀ c ∈ [0], ([5, 2] : List Int).getD c 0 = ([5, 0] : List Int).getD c 0) ∧
      (∀ f, f < 2 → f ∉ [0] →
        ((fun u : List Int => u) [5, 2]).getD f 0 = ([1, 2] : List Int).getD f 0) :=
  elimination_consistent
    { height := 2, width := 2, Mult := fun u => u, MultTranspose := fun u => u }
    [0] [5, 0] [1, 2] [5, 2] (by intro u hu; exact hu) (by intro u v _ _; rfl) (by decide)
    (by decide) (by decide)

/-! ## Restriction and prolongation -/

theorem getD_map_range_gen {α : Type} (f : Nat → α) (d : α) (n i : Nat) (hi : i < n) :
    ((List.range n).map f).getD i d = f i := by
  rw [List.getD_eq_getElem _ _ (by simpa using hi)]
  simp

theorem filter_tagged (f : Nat → List (Nat × Int)) (i : Nat) (h : Nat) :
    ((List.range h).flatMap (fun k => (f k).map (fun e => (k, e.2)))).filter
        (fun e => decide (e.1 = i))
      = if i < h then (f i).map (fun e => (i, e.2)) else [] := by
  induction h with
  | zero => simp
  | succ h ih =>
    rw [List.range_succ, List.flatMap_append, List.filter_append, ih]
    simp only [List.flatMap_cons, List.flatMap_nil, List.append_nil, List.filter_map]
    by_cases hi : h = i
    · subst hi
      have hf : List.filter ((fun e : Nat × Int => decide (e.1 = h)) ∘ fun e => (h, e.2)) (f h)
          = f h := by
        rw [List.filter_eq_self]
        intro a _
        simp
      rw [hf, if_neg (Nat.lt_irrefl h), if_pos (Nat.lt_succ_self h), List.nil_append]
    · have hf : List.filter ((fun e : Nat × Int => decide (e.1 = i)) ∘ fun e => (h, e.2)) (f h)
          = [] := by
        rw [List.filter_eq_nil_iff]
        intro a _
        simp [hi]
      rw [hf, List.map_nil, List.append_nil]
      by_cases h1 : i < h
      · rw [if_pos h1, if_pos (by omega)]
      · rw [if_neg h1, if_neg (by omega)]

/-- The model of `Transpose` transposes: entry `(j, i)` of the result is entry
`(i, j)` of the matrix. -/
theorem entry_Transpose (m : SparseMatrix) (i j : Nat) (hi : i < m.height) (hj : j < m.width) :
    (Transpose m).entry j i = m.entry i j := by
  unfold SparseMatrix.entry Transpose
  simp only
  rw [getD_map_range_gen _ _ _ _ hj,
    filter_tagged (fun k => (m.rows.getD k []).filter (fun e => decide (e.1 = j))) i m.height,
    if_pos hi, List.map_map]
  rfl

/-- C8: decision procedure of `CreateRPOperators`.  If `P` is absent both outputs are
null, whatever `R` is.  If `P` is a sparse matrix the prolongation output is the pair
of device matrices: its forward apply multiplies by `P` and its transpose apply
multiplies by the transpose of `P`.  If `P` is any other operator the prolongation
output wraps `P`: its forward apply is the forward apply of `P` and its transpose apply
is the transpose apply of `P`.  Whenever `P` and `R` are both present the restriction
output is an index-gather operator of height `R.Height` and width `R.Width`. -/
theorem createRP_decision (R : Option SparseMatrix) (OccaR : Option OccaOperator) :
    CreateRPOperators R none OccaR = (none, none) ∧
    (∀ (m : SparseMatrix) (x : List Int), ∃ p,
      (CreateRPOperators R (some (HostOperator.sparse m)) OccaR).2
          = some (OccaOperator.prolongation p) ∧
        p.pmat = none ∧ (p.Mult x).y = m.mulVec x ∧
        (p.MultTranspose x).y = (Transpose m).mulVec x) ∧
    (∀ (m : SparseMatrix) (i j : Nat), i < m.height → j < m.width →
      (Transpose m).entry j i = m.entry i j) ∧
    (∀ (op : Operator) (x : List Int), ∃ p,
      (CreateRPOperators R (some (HostOperator.general op)) OccaR).2
          = some (OccaOperator.prolongation p) ∧
        p.pmat = some op ∧ (p.Mult x).y = op.Mult x ∧
        (p.MultTranspose x).y = op.MultTranspose x) ∧
    (∀ (r : SparseMatrix) (P : HostOperator), ∃ ro,
      (CreateRPOperators (some r) (some P) OccaR).1 = some (OccaOperator.restriction ro) ∧
        ro.height = r.height ∧ ro.width = r.width ∧
        ro = OccaRestrictionOperator.new r.height r.width
          (CreateMappedSparseMatrix r).reorderIndices) := by
  refine ⟨rfl, ?_, entry_Transpose, ?_, ?_⟩
  · intro m x
    exact ⟨_, rfl, rfl, rfl, rfl⟩
  · intro op x
    exact ⟨_, rfl, rfl, rfl, rfl⟩
  · intro r P
    exact ⟨_, rfl, rfl, rfl, rfl⟩

/-- C9, as the code has it: the forward apply of the wrapping prolongation operator
runs barrier, device-to-host transfer, forward apply, host-to-device transfer, in this
order; the transpose apply runs device-to-host transfer, transpose apply,
host-to-device transfer, with no barrier before the transfer. -/
theorem prolongation_traces (op : Operator) (x : List Int) :
    ((OccaProlongationOperator.ofOperator op).Mult x).trace
      = [Effect.barrier, Effect.deviceToHost, Effect.applyForward, Effect.hostToDevice] ∧
    ((OccaProlongationOperator.ofOperator op).MultTranspose x).trace
      = [Effect.deviceToHost, Effect.applyTranspose, Effect.hostToDevice] ∧
    Effect.barrier ∉ ((OccaProlongationOperator.ofOperator op).MultTranspose x).trace := by
  refine ⟨rfl, rfl, ?_⟩
  show Effect.barrier ∉ [Effect.deviceToHost, Effect.applyTranspose, Effect.hostToDevice]
  decide

/-! ## Prolongation followed by restriction -/

theorem flat_pairs (a b : Nat → Nat) (h : Nat) :
    ((List.range h).flatMap (fun i => [a i, b i])).length = 2 * h ∧
    ∀ k, k < h →
      ((List.range h).flatMap (fun i => [a i, b i])).getD (2 * k) 0 = a k ∧
      ((List.range h).flatMap (fun i => [a i, b i])).getD (2 * k + 1) 0 = b k := by
  induction h with
  | zero => simp
  | succ h ih =>
    obtain ⟨h1, h2⟩ := ih
    rw [List.range_succ, List.flatMap_append]
    simp only [List.flatMap_cons, List.flatMap_nil, List.append_nil]
    refine ⟨by rw [List.length_append, h1]; simp; omega, ?_⟩
    intro k hk
    by_cases hkh : k < h
    · rw [List.getD_append _ _ _ _ (by omega), List.getD_append _ _ _ _ (by omega)]
      exact h2 k hkh
    · have e : k = h := by omega
      subst e
      rw [List.getD_append_right _ _ _ _ (by omega),
        List.getD_append_right _ _ _ _ (by omega), h1]
      have e1 : 2 * k - 2 * k = 0 := by omega
      have e2 : 2 * k + 1 - 2 * k = 1 := by omega
      rw [e1, e2]
      simp

theorem selection_row (R : SparseMatrix) (cols : List Nat)
    (hrows : R.rows = cols.map (fun j => [(j, (1 : Int))])) (i : Nat) (hi : i < cols.length) :
    R.rows.getD i [] = [(cols.getD i 0, 1)] := by
  rw [hrows, List.getD_eq_getElem _ _ (by simpa using hi), List.getElem_map,
    List.getD_eq_getElem _ _ hi]

theorem cols_inj (cols : List Nat) (hnd : cols.Nodup) (i k : Nat) (hi : i < cols.length)
    (hk : k < cols.length) (h : cols.getD i 0 = cols.getD k 0) : i = k := by
  rw [List.getD_eq_getElem _ _ hi, List.getD_eq_getElem _ _ hk] at h
  exact (List.Nodup.getElem_inj_iff hnd).mp h

/-- A column of a selection with distinct columns meets exactly one row. -/
theorem sum_selected (c : Nat → Nat) (x : List Int) (H k : Nat) (hk : k < H)
    (hinj : ∀ i, i < H → c i = c k → i = k) (h : Nat) (hh : h ≤ H) :
    (((List.range h).flatMap (fun i =>
        (([(c i, (1 : Int))]).filter (fun e => decide (e.1 = c k))).map
          (fun e => (i, e.2)))).map (fun e => e.2 * x.getD e.1 0)).sum
      = if k < h then x.getD k 0 else 0 := by
  induction h with
  | zero => simp
  | succ h ih =>
    rw [List.range_succ, List.flatMap_append, List.map_append, List.sum_append, ih (by omega)]
    simp only [List.flatMap_cons, List.flatMap_nil, List.append_nil]
    by_cases hc : c h = c k
    · have e : h = k := hinj h (by omega) hc
      subst e
      rw [if_neg (Nat.lt_irrefl h), if_pos (Nat.lt_succ_self h)]
      simp
    · have hf : List.filter (fun e : Nat × Int => decide (e.1 = c k)) [(c h, 1)] = [] := by
        simp [hc]
      rw [hf]
      have hne : h ≠ k := fun e => hc (by rw [e])
      by_cases h1 : k < h
      · rw [if_pos h1, if_pos (by omega)]; simp
      · rw [if_neg h1, if_neg (by omega)]; simp

/-- C10, amended: for every restriction matrix `R` that is a selection (each row has
exactly one entry, equal to 1, at a column below the width) whose rows select pairwise
distinct columns, and `P` the transpose of `R`, the operators built by
`CreateRPOperators` satisfy: the prolongation forward multiply of a true-dof vector
`x` followed by the restriction index gather returns `x`. -/
theorem selection_roundtrip (R : SparseMatrix) (cols : List Nat) (x yTrue : List Int)
    (hh : R.height = cols.length) (hrows : R.rows = cols.map (fun j => [(j, (1 : Int))]))
    (hw : ∀ j ∈ cols, j < R.width) (hnd : cols.Nodup)
    (hx : x.length = R.height) (hy : yTrue.length = R.height) :
    prolongThenRestrict R (HostOperator.sparse (Transpose R)) x yTrue = some x := by
  have hrow : ∀ i, i < R.height → R.rows.getD i [] = [(cols.getD i 0, 1)] :=
    fun i hi => selection_row R cols hrows i (by omega)
  -- the index buffer of the restriction
  have hri : (CreateMappedSparseMatrix R).reorderIndices
      = (List.range R.height).flatMap (fun i => [cols.getD i 0, i]) := by
    unfold CreateMappedSparseMatrix
    simp only
    apply List.flatMap_congr
    intro i hi
    rw [hrow i (List.mem_range.mp hi)]
  obtain ⟨p1, p2⟩ := flat_pairs (fun i => cols.getD i 0) (fun i => i) R.height
  -- the prolongation multiplies by the transpose
  have hmul : ∀ k, k < R.height →
      ((Transpose R).mulVec x).getD (cols.getD k 0) 0 = x.getD k 0 := by
    intro k hk
    have hck : cols.getD k 0 < R.width := by
      rw [List.getD_eq_getElem _ _ (by omega)]
      exact hw _ (List.getElem_mem _)
    unfold SparseMatrix.mulVec
    rw [getD_map_range, if_pos (by exact hck)]
    have hT : (Transpose R).rows.getD (cols.getD k 0) []
        = (List.range R.height).flatMap (fun i =>
            (([(cols.getD i 0, (1 : Int))]).filter
              (fun e => decide (e.1 = cols.getD k 0))).map (fun e => (i, e.2))) := by
      unfold Transpose
      simp only
      rw [getD_map_range_gen _ _ _ _ hck]
      apply List.flatMap_congr
      intro i hi
      rw [hrow i (List.mem_range.mp hi)]
    rw [hT, sum_selected (fun i => cols.getD i 0) x R.height k hk
      (fun i hi h => cols_inj cols hnd i k (by omega) (by omega) h) R.height (Nat.le_refl _),
      if_pos hk]
  show some (ExtractSubVector ((CreateMappedSparseMatrix R).reorderIndices.length / 2)
    (CreateMappedSparseMatrix R).reorderIndices ((Transpose R).mulVec x) yTrue) = some x
  rw [hri, p1, Nat.mul_div_cancel_left _ (by decide : 0 < 2)]
  congr 1
  have hflat : ExtractSubVector R.height
      ((List.range R.height).flatMap (fun i => [cols.getD i 0, i]))
      ((Transpose R).mulVec x) yTrue
      = (List.range R.height).foldl (fun y k => y.set k (x.getD k 0)) yTrue := by
    unfold ExtractSubVector
    apply List.foldl_ext
    intro y k hk
    have hk2 := List.mem_range.mp hk
    rw [(p2 k hk2).1, (p2 k hk2).2, hmul k hk2]
  rw [hflat]
  apply List.ext_getElem?
  intro j
  rw [getElem?_foldl_set_range, hy]
  by_cases hj : j < R.height
  · rw [if_pos hj, if_pos hj, List.getD_eq_getElem _ _ (by omega),
      List.getElem?_eq_getElem (by omega)]
  · rw [if_neg hj, List.getElem?_eq_none (by omega), List.getElem?_eq_none (by omega)]

theorem selection_roundtrip_witness :
    prolongThenRestrict { height := 2, width := 3, rows := [[(2, 1)], [(0, 1)]] }
      (HostOperator.sparse (Transpose { height := 2, width := 3, rows := [[(2, 1)], [(0, 1)]] }))
      [7, 9] [0, 0] = some [7, 9] :=
  selection_roundtrip { height := 2, width := 3, rows := [[(2, 1)], [(0, 1)]] } [2, 0] [7, 9]
    [0, 0] (by decide) (by decide) (by decide) (by decide) (by decide) (by decide)

/-- C10 as stated fails: the matrix with two rows that both select column 0 is a
selection with entries 1, its transpose is taken as `P`, and prolongation followed by
restriction sends `[1, 0]` to `[1, 1]`. -/
theorem selection_roundtrip_counterexample :
    (({ height := 2, width := 1, rows := [[(0, 1)], [(0, 1)]] } : SparseMatrix).rows
        = [0, 0].map (fun j => [(j, (1 : Int))])) ∧
    prolongThenRestrict { height := 2, width := 1, rows := [[(0, 1)], [(0, 1)]] }
      (HostOperator.sparse (Transpose { height := 2, width := 1, rows := [[(0, 1)], [(0, 1)]] }))
      [1, 0] [0, 0] = some [1, 1] ∧
    prolongThenRestrict { height := 2, width := 1, rows := [[(0, 1)], [(0, 1)]] }
      (HostOperator.sparse (Transpose { height := 2, width := 1, rows := [[(0, 1)], [(0, 1)]] }))
      [1, 0] [0, 0] ≠ some [1, 0] := by
  refine ⟨rfl, by decide, by decide⟩

/-! ## Integrator registration -/

theorem error_text_domain :
    "OccaBilinearForm::" ++ "AddDomainIntegrator" ++ " (...):\n" ++
        "  No kernel builder for occa::BilinearFormIntegrator \x27"
      = "OccaBilinearForm::AddDomainIntegrator (...):\n  No kernel builder for occa::BilinearFormIntegrator \x27" := by
  decide

theorem error_text_boundary :
    "OccaBilinearForm::" ++ "AddBoundaryIntegrator" ++ " (...):\n" ++
        "  No kernel builder for occa::BilinearFormIntegrator \x27"
      = "OccaBilinearForm::AddBoundaryIntegrator (...):\n  No kernel builder for occa::BilinearFormIntegrator \x27" := by
  decide

theorem error_text_interior_face :
    "OccaBilinearForm::" ++ "AddInteriorFaceIntegrator" ++ " (...):\n" ++
        "  No kernel builder for occa::BilinearFormIntegrator \x27"
      = "OccaBilinearForm::AddInteriorFaceIntegrator (...):\n  No kernel builder for occa::BilinearFormIntegrator \x27" := by
  decide

theorem error_text_boundary_face :
    "OccaBilinearForm::" ++ "AddBoundaryFaceIntegrator" ++ " (...):\n" ++
        "  No kernel builder for occa::BilinearFormIntegrator \x27"
      = "OccaBilinearForm::AddBoundaryFaceIntegrator (...):\n  No kernel builder for occa::BilinearFormIntegrator \x27" := by
  decide

theorem addIntegrator_missing (form : OccaBilinearForm) (reg : Registry)
    (bfi : BilinearFormIntegrator) (props : Props) (itype : OccaIntegratorType)
    (h : reg.builderFor bfi.Name = none) :
    (form.AddIntegrator reg bfi props itype).error
      = some ("OccaBilinearForm::" ++
          (match itype with
           | .DomainIntegrator => "AddDomainIntegrator"
           | .BoundaryIntegrator => "AddBoundaryIntegrator"
           | .InteriorFaceIntegrator => "AddInteriorFaceIntegrator"
           | .BoundaryFaceIntegrator => "AddBoundaryFaceIntegrator") ++ " (...):\n" ++
          "  No kernel builder for occa::BilinearFormIntegrator \x27" ++ bfi.Name ++ "\x27") ∧
    (form.AddIntegrator reg bfi props itype).form = form := by
  unfold Registry.builderFor at h
  unfold OccaBilinearForm.AddIntegrator Registry.subscript
  cases hl : reg.lookup bfi.Name with
  | none => exact ⟨rfl, rfl⟩
  | some b =>
    rw [hl] at h
    simp only at h
    subst h
    exact ⟨rfl, rfl⟩

theorem addIntegrator_found (form : OccaBilinearForm) (reg : Registry)
    (bfi : BilinearFormIntegrator) (props : Props) (itype : OccaIntegratorType)
    (builder : IntegratorBuilder) (h : reg.builderFor bfi.Name = some builder) :
    (form.AddIntegrator reg bfi props itype).error = none ∧
    (form.AddIntegrator reg bfi props itype).form.integrators
      = form.integrators ++
          [builder.CreateInstance bfi (Props.merge form.baseKernelProps props) itype] := by
  unfold Registry.builderFor at h
  unfold OccaBilinearForm.AddIntegrator Registry.subscript
  cases hl : reg.lookup bfi.Name with
  | none => rw [hl] at h; simp at h
  | some b =>
    rw [hl] at h
    simp only at h
    subst h
    exact ⟨rfl, rfl⟩

/-- C11: `AddIntegrator`, behind the four `Add*Integrator` entry points, for every
integrator name and every state of the builder map.  It fails if and only if the map
has no builder for the name of the integrator.  When it fails the error text is
`OccaBilinearForm::<call site> (...):` followed, on a new line, by
`  No kernel builder for occa::BilinearFormIntegrator '<name>'`, the call site being
the entry point, and the form, hence its integrator list, is as before.  Otherwise it
succeeds and the integrator list is the previous list with exactly one element
appended at the end. -/
theorem addIntegrator_registration (form : OccaBilinearForm) (reg : Registry)
    (bfi : BilinearFormIntegrator) (props : Props) (itype : OccaIntegratorType) :
    ((form.AddIntegrator reg bfi props itype).error ≠ none ↔
      reg.builderFor bfi.Name = none) ∧
    (reg.builderFor bfi.Name = none →
      (form.AddDomainIntegrator reg bfi props).error
        = some ("OccaBilinearForm::AddDomainIntegrator (...):\n  No kernel builder for occa::BilinearFormIntegrator \x27"
            ++ bfi.Name ++ "\x27") ∧
      (form.AddBoundaryIntegrator reg bfi props).error
        = some ("OccaBilinearForm::AddBoundaryIntegrator (...):\n  No kernel builder for occa::BilinearFormIntegrator \x27"
            ++ bfi.Name ++ "\x27") ∧
      (form.AddInteriorFaceIntegrator reg bfi props).error
        = some ("OccaBilinearForm::AddInteriorFaceIntegrator (...):\n  No kernel builder for occa::BilinearFormIntegrator \x27"
            ++ bfi.Name ++ "\x27") ∧
      (form.AddBoundaryFaceIntegrator reg bfi props).error
        = some ("OccaBilinearForm::AddBoundaryFaceIntegrator (...):\n  No kernel builder for occa::BilinearFormIntegrator \x27"
            ++ bfi.Name ++ "\x27") ∧
      (form.AddIntegrator reg bfi props itype).form = form ∧
      (form.AddIntegrator reg bfi props itype).form.integrators = form.integrators) ∧
    (∀ builder, reg.builderFor bfi.Name = some builder →
      (form.AddIntegrator reg bfi props itype).error = none ∧
      (form.AddIntegrator reg bfi props itype).form.integrators
        = form.integrators ++
            [builder.CreateInstance bfi (Props.merge form.baseKernelProps props) itype] ∧
      (form.AddIntegrator reg bfi props itype).form.integrators.length
        = form.integrators.length + 1) := by
  refine ⟨?_, ?_, ?_⟩
  · constructor
    · intro herr
      cases hb : reg.builderFor bfi.Name with
      | none => rfl
      | some b => exact absurd (addIntegrator_found form reg bfi props itype b hb).1 herr
    · intro hb
      rw [(addIntegrator_missing form reg bfi props itype hb).1]
      exact Option.some_ne_none _
  · intro hb
    refine ⟨?_, ?_, ?_, ?_, (addIntegrator_missing form reg bfi props itype hb).2, ?_⟩
    · unfold OccaBilinearForm.AddDomainIntegrator
      rw [(addIntegrator_missing form reg bfi props _ hb).1, ← error_text_domain]
    · unfold OccaBilinearForm.AddBoundaryIntegrator
      rw [(addIntegrator_missing form reg bfi props _ hb).1, ← error_text_boundary]
    · unfold OccaBilinearForm.AddInteriorFaceIntegrator
      rw [(addIntegrator_missing form reg bfi props _ hb).1, ← error_text_interior_face]
    · unfold OccaBilinearForm.AddBoundaryFaceIntegrator
      rw [(addIntegrator_missing form reg bfi props _ hb).1, ← error_text_boundary_face]
    · rw [(addIntegrator_missing form reg bfi props itype hb).2]
  · intro builder hb
    obtain ⟨h1, h2⟩ := addIntegrator_found form reg bfi props itype builder hb
    refine ⟨h1, h2, ?_⟩
    rw [h2, List.length_append]
    rfl

/-! ## The apply path and the unsupported transpose -/

theorem map_getD_range_fun {α : Type} (l : List α) (d : α) :
    (List.range l.length).map (fun i => l.getD i d) = l := by
  apply List.ext_getElem?
  intro j
  by_cases h : j < l.length
  · simp [List.getElem?_range, h, List.getElem?_eq_getElem h]
  · have h2 : l.length ≤ j := by omega
    simp [List.getElem?_eq_none h2]
    exact h2

theorem integrator_loop (ks : List (List Int → List Int)) (localX : List Int) :
    (List.range ks.length).foldl (fun localX i => (ks.getD i id) localX) localX
      = ks.foldl (fun localX k => k localX) localX := by
  conv_rhs => rw [← map_getD_range_fun ks id, List.foldl_map]

/-- C12: for every list of registered local-apply units `k1, ..., kn` (in registration
order) and every input `x`, `OccaBilinearForm::Mult(x)` is
`Assemble(kn(... k2(k1(Extract(x))) ...))`: the units are applied in registration
order to the one local buffer, each receiving it as the previous one left it.  The
call writes the scratch vector and `y` only; `x` is a read-only argument. -/
theorem mult_composition (form : OccaBilinearForm) (x y : List Int) :
    (form.Mult x y).1
      = form.integrators.foldl (fun localX k => k localX) (form.VectorExtract x form.localX) ∧
    (form.Mult x y).2
      = form.VectorAssemble
          (form.integrators.foldl (fun localX k => k localX)
            (form.VectorExtract x form.localX)) y ∧
    (∀ (k1 k2 : List Int → List Int), form.integrators = [k1, k2] →
      (form.Mult x y).2 = form.VectorAssemble (k2 (k1 (form.VectorExtract x form.localX))) y) := by
  have h1 : (form.Mult x y).1
      = form.integrators.foldl (fun localX k => k localX)
          (form.VectorExtract x form.localX) := by
    unfold OccaBilinearForm.Mult
    exact integrator_loop _ _
  have h2 : (form.Mult x y).2 = form.VectorAssemble (form.Mult x y).1 y := rfl
  refine ⟨h1, by rw [h2, h1], ?_⟩
  intro k1 k2 hk
  rw [h2, h1, hk]
  rfl

/-- C13: `OccaBilinearForm::MultTranspose` fails fatally for every input `x`, every
output `y` and every state of the form, whatever integrators are registered, and
leaves `y` as it was. -/
theorem multTranspose_unsupported (form : OccaBilinearForm) (x y : List Int) :
    (form.MultTranspose x y).error
      = some "occa::OccaBilinearForm::MultTranspose() is not overloaded!" ∧
    (form.MultTranspose x y).error ≠ none ∧
    (form.MultTranspose x y).y = y :=
  ⟨rfl, Option.some_ne_none _, rfl⟩

/-! ## Construction of the form -/

/-- C19: when `P` is present and `R` is absent, `CreateRPOperators` assigns the
prolongation output and does not assign the restriction output: `OccaR` after the call
is `OccaR` before the call, for every `P`; so `SetupInterpolationData` leaves the
member `restrictionOp` as it found it. -/
theorem createRP_keeps_restriction (P : HostOperator) (OccaR : Option OccaOperator) :
    (CreateRPOperators none (some P) OccaR).1 = OccaR ∧
    (∃ p, (CreateRPOperators none (some P) OccaR).2 = some (OccaOperator.prolongation p)) ∧
    (∀ (form : OccaBilinearForm) (fes : FiniteElementSpace), fes.R = none → fes.P = some P →
      (form.SetupInterpolationData fes).restrictionOp = form.restrictionOp) := by
  refine ⟨rfl, ?_, ?_⟩
  · cases P with
    | sparse m => exact ⟨_, rfl⟩
    | general op => exact ⟨_, rfl⟩
  · intro form fes hR hP
    unfold OccaBilinearForm.SetupInterpolationData
    simp only [hR, hP]
    rfl

/-- C20: the constructor `OccaBilinearForm(device_, f)` does not use its device
argument.  It hands the member `device` of the form to `Init`, so for any two device
arguments and the same space the constructed form is the same, and the device it
stores and returns from `GetDevice()` is the value the member had before the call, not
the argument.  The other constructor stores the current device. -/
theorem constructOn_ignores_device (form : OccaBilinearForm) (env : Collaborators)
    (reg : Registry) (d1 d2 : Device) (f : FiniteElementSpace) :
    (form.constructOn env reg d1 f).2.GetDevice = (form.constructOn env reg d2 f).2.GetDevice ∧
    (form.constructOn env reg d1 f).2.GetDevice = form.device ∧
    (form.constructOn env reg d1 f).2.device = form.device ∧
    (form.construct env reg f).2.GetDevice = env.currentDevice :=
  ⟨rfl, rfl, rfl, rfl⟩

/-- C14, amended: after initialisation of the form, for every element count `E`, local
dof count `L` and vector-block width `vdim`, the local scratch vector has size
`E * L`; this is `E * L * vdim` exactly when `vdim = 1` or `E * L = 0`. -/
theorem localX_size (form : OccaBilinearForm) (env : Collaborators) (reg : Registry)
    (device_ : Device) (f : FiniteElementSpace) :
    (form.construct env reg f).2.localX.length = f.NE * f.localDofs ∧
    (form.constructOn env reg device_ f).2.localX.length = f.NE * f.localDofs ∧
    ((form.construct env reg f).2.localX.length = f.NE * f.localDofs * f.GetVDim ↔
      (f.GetVDim = 1 ∨ f.NE * f.localDofs = 0)) := by
  have h1 : (form.construct env reg f).2.localX.length = f.NE * f.localDofs := by
    show (List.replicate (f.NE * f.localDofs) (0 : Int)).length = _
    simp
  have h2 : (form.constructOn env reg device_ f).2.localX.length = f.NE * f.localDofs := by
    show (List.replicate (f.NE * f.localDofs) (0 : Int)).length = _
    simp
  refine ⟨h1, h2, ?_⟩
  rw [h1]
  unfold FiniteElementSpace.GetVDim
  constructor
  · intro h
    by_cases h0 : f.NE * f.localDofs = 0
    · exact Or.inr h0
    · left
      have hpos : 0 < f.NE * f.localDofs := Nat.pos_of_ne_zero h0
      have h3 : f.NE * f.localDofs * 1 = f.NE * f.localDofs * f.VDim := by
        rw [Nat.mul_one]; exact h
      exact (Nat.eq_of_mul_eq_mul_left hpos h3).symm
  · intro h
    rcases h with h | h
    · rw [h, Nat.mul_one]
    · rw [h, Nat.zero_mul]

/-- C14 as stated fails: one element with one local dof and vector-block width 2 gets
a local scratch vector of size 1, not 2. -/
theorem localX_size_counterexample :
    1 ≤ ({ NE := 1, NDofs := 1, VDim := 2, VSize := 2, localDofs := 1, dofMap := none,
           elementToDof := [0], R := none, P := none } : FiniteElementSpace).GetVDim ∧
    ((OccaBilinearForm.construct
        { numDofs := 0, globalToLocalOffsets := [], globalToLocalIndices := [], localX := [],
          integrators := [] }
        { diffusionName := "DiffusionIntegrator",
          diffusionBuilder := { CreateInstance := fun _ _ _ => id },
          currentDevice := Device.handle 0 }
        []
        { NE := 1, NDofs := 1, VDim := 2, VSize := 2, localDofs := 1, dofMap := none,
          elementToDof := [0], R := none, P := none }).2.localX.length = 1) ∧
    ((OccaBilinearForm.construct
        { numDofs := 0, globalToLocalOffsets := [], globalToLocalIndices := [], localX := [],
          integrators := [] }
        { diffusionName := "DiffusionIntegrator",
          diffusionBuilder := { CreateInstance := fun _ _ _ => id },
          currentDevice := Device.handle 0 }
        []
        { NE := 1, NDofs := 1, VDim := 2, VSize := 2, localDofs := 1, dofMap := none,
          elementToDof := [0], R := none, P := none }).2.localX.length ≠ 1 * 1 * 2) := by
  refine ⟨by decide, by decide, by decide⟩

/-! ## Order and content of the buckets -/

theorem flat_lt_lex (L a b : Nat) (h : a < b) :
    a / L < b / L ∨ (a / L = b / L ∧ a % L < b % L) := by
  rcases Nat.lt_or_eq_of_le (Nat.div_le_div_right (c := L) (Nat.le_of_lt h)) with h1 | h1
  · exact Or.inl h1
  · right
    refine ⟨h1, ?_⟩
    have ha := Nat.div_add_mod a L
    have hb := Nat.div_add_mod b L
    rw [h1] at ha
    omega

theorem flat_index_iff (E L i : Nat) (P : Nat → Nat → Prop) :
    (i < E * L ∧ P (i / L) (i % L)) ↔
      ∃ e d, e < E ∧ d < L ∧ i = L * e + d ∧ P e d := by
  constructor
  · rintro ⟨hi, hP⟩
    have hL : 0 < L := by
      rcases Nat.eq_zero_or_pos L with h | h
      · subst h; simp at hi
      · exact h
    exact ⟨i / L, i % L, Nat.div_lt_of_lt_mul (by rw [Nat.mul_comm]; exact hi),
      Nat.mod_lt _ hL, (Nat.div_add_mod i L).symm, hP⟩
  · rintro ⟨e, d, he, hd, rfl, hP⟩
    have hL : 0 < L := by omega
    have h1 : (L * e + d) / L = e := by
      rw [Nat.mul_add_div hL, Nat.div_eq_of_lt hd, Nat.add_zero]
    have h2 : (L * e + d) % L = d := by
      rw [Nat.mul_add_mod, Nat.mod_eq_of_lt hd]
    refine ⟨?_, by rw [h1, h2]; exact hP⟩
    calc L * e + d < L * e + L := by omega
      _ = L * (e + 1) := by rw [Nat.mul_succ]
      _ ≤ L * E := Nat.mul_le_mul_left _ he
      _ = E * L := Nat.mul_comm _ _

theorem multiplicity_countKey (elementMap : List Nat) (n g : Nat)
    (hlen : elementMap.length = n) :
    multiplicity (countKey elementMap) n g = elementMap.count g := by
  unfold multiplicity
  have h : elementMap.count g
      = ((List.range n).map (countKey elementMap)).count g := by
    unfold countKey
    rw [← hlen, map_getD_range]
  rw [h, List.count_eq_countP, List.countP_map]
  congr 1

/-- C15: deterministic tie-break.  For every well-formed connectivity and permutation,
within the range `indices[offsets[g] .. offsets[g+1])` of each dof `g` the entries are
strictly increasing as flat indices `L * e + d`, that is ordered by ascending element
index and then ascending local index. -/
theorem bucket_sorted (elementMap : List Nat) (el : Option (List Nat)) (E N L : Nat)
    (hlen : elementMap.length = E * L) (hconn : ∀ x ∈ elementMap, x < N)
    (hperm : ∀ m, el = some m → m.Perm (List.range L))
    (g p q : Nat) (hg : g < N)
    (hp : (SetupIntegratorData elementMap el E N L).globalToLocalOffsets.getD g 0 ≤ p)
    (hpq : p < q)
    (hq : q < (SetupIntegratorData elementMap el E N L).globalToLocalOffsets.getD (g + 1) 0) :
    (SetupIntegratorData elementMap el E N L).globalToLocalIndices.getD p 0
      < (SetupIntegratorData elementMap el E N L).globalToLocalIndices.getD q 0 ∧
    ((SetupIntegratorData elementMap el E N L).globalToLocalIndices.getD p 0 / L
        < (SetupIntegratorData elementMap el E N L).globalToLocalIndices.getD q 0 / L ∨
      ((SetupIntegratorData elementMap el E N L).globalToLocalIndices.getD p 0 / L
          = (SetupIntegratorData elementMap el E N L).globalToLocalIndices.getD q 0 / L ∧
        (SetupIntegratorData elementMap el E N L).globalToLocalIndices.getD p 0 % L
          < (SetupIntegratorData elementMap el E N L).globalToLocalIndices.getD q 0 % L)) := by
  obtain ⟨w1, w2⟩ := wellformed_inputs elementMap el E N L hlen hconn hperm
  obtain ⟨_, _, s3, s4⟩ := setup_spec elementMap el E N L w1 w2
  rw [s3 g (by omega)] at hp
  rw [s3 (g + 1) (by omega), startOf_succ] at hq
  obtain ⟨j, rfl⟩ := Nat.exists_eq_add_of_le hp
  obtain ⟨k, rfl⟩ := Nat.exists_eq_add_of_le (Nat.le_trans hp (Nat.le_of_lt hpq))
  have hlt : (SetupIntegratorData elementMap el E N L).globalToLocalIndices.getD
        (startOf (fillKey elementMap (selectDofMap el L) L) (E * L) g + j) 0
      < (SetupIntegratorData elementMap el E N L).globalToLocalIndices.getD
        (startOf (fillKey elementMap (selectDofMap el L) L) (E * L) g + k) 0 := by
    rw [s4 g j (by omega), s4 g k (by omega)]
    exact bucket_getD_lt _ _ g j k (by omega) (by omega)
  exact ⟨hlt, flat_lt_lex L _ _ hlt⟩

theorem bucket_sorted_witness :
    (SetupIntegratorData [0, 1, 1, 2] none 2 3 2).globalToLocalIndices.getD 1 0
      < (SetupIntegratorData [0, 1, 1, 2] none 2 3 2).globalToLocalIndices.getD 2 0 ∧
    ((SetupIntegratorData [0, 1, 1, 2] none 2 3 2).globalToLocalIndices.getD 1 0 / 2
        < (SetupIntegratorData [0, 1, 1, 2] none 2 3 2).globalToLocalIndices.getD 2 0 / 2 ∨
      ((SetupIntegratorData [0, 1, 1, 2] none 2 3 2).globalToLocalIndices.getD 1 0 / 2
          = (SetupIntegratorData [0, 1, 1, 2] none 2 3 2).globalToLocalIndices.getD 2 0 / 2 ∧
        (SetupIntegratorData [0, 1, 1, 2] none 2 3 2).globalToLocalIndices.getD 1 0 % 2
          < (SetupIntegratorData [0, 1, 1, 2] none 2 3 2).globalToLocalIndices.getD 2 0 % 2)) :=
  bucket_sorted [0, 1, 1, 2] none 2 3 2 (by decide) (by decide) (by intro m hm; cases hm)
    1 1 2 (by decide) (by decide) (by decide) (by decide)

/-- C16: bucket content.  For every connectivity with entries in `[0, N)` and every
permutation of `[0, L)`, for every dof `g < N` the range
`indices[offsets[g] .. offsets[g+1])` holds exactly the flat indices `L * e + d`
(`e < E`, `d < L`) with `conn(e, perm(d)) = g`, and `offsets[g+1] - offsets[g]` is the
number of (element, local index) pairs that reference `g`.  For `E = 2`, `L = 2`,
`N = 3`, `conn = [[0,1],[1,2]]` and the identity permutation the result is
`offsets = [0,1,3,4]` and `indices = [0,1,2,3]`. -/
theorem bucket_content (elementMap : List Nat) (el : Option (List Nat)) (E N L : Nat)
    (hlen : elementMap.length = E * L) (hconn : ∀ x ∈ elementMap, x < N)
    (hperm : ∀ m, el = some m → m.Perm (List.range L)) (g : Nat) (hg : g < N) :
    (∀ i, i ∈ (List.range'
          ((SetupIntegratorData elementMap el E N L).globalToLocalOffsets.getD g 0)
          ((SetupIntegratorData elementMap el E N L).globalToLocalOffsets.getD (g + 1) 0
            - (SetupIntegratorData elementMap el E N L).globalToLocalOffsets.getD g 0)).map
          (fun p => (SetupIntegratorData elementMap el E N L).globalToLocalIndices.getD p 0) ↔
      ∃ e d, e < E ∧ d < L ∧ i = L * e + d ∧
        elementMap.getD (L * e + (selectDofMap el L).getD d 0) 0 = g) ∧
    (SetupIntegratorData elementMap el E N L).globalToLocalOffsets.getD (g + 1) 0
        - (SetupIntegratorData elementMap el E N L).globalToLocalOffsets.getD g 0
      = elementMap.count g ∧
    (SetupIntegratorData [0, 1, 1, 2] none 2 3 2).globalToLocalOffsets = [0, 1, 3, 4] ∧
    (SetupIntegratorData [0, 1, 1, 2] none 2 3 2).globalToLocalIndices = [0, 1, 2, 3] ∧
    (SetupIntegratorData [0, 1, 1, 2] (some [0, 1]) 2 3 2).globalToLocalOffsets = [0, 1, 3, 4] ∧
    (SetupIntegratorData [0, 1, 1, 2] (some [0, 1]) 2 3 2).globalToLocalIndices
      = [0, 1, 2, 3] := by
  obtain ⟨w1, w2⟩ := wellformed_inputs elementMap el E N L hlen hconn hperm
  obtain ⟨_, _, s3, s4⟩ := setup_spec elementMap el E N L w1 w2
  refine ⟨?_, ?_, by decide, by decide, by decide, by decide⟩
  · intro i
    rw [segment_eq_bucket _ (E * L) N _ _ s3 s4 g hg]
    unfold bucket
    rw [List.mem_filter, List.mem_range, decide_eq_true_eq]
    exact flat_index_iff E L i
      (fun e d => elementMap.getD (L * e + (selectDofMap el L).getD d 0) 0 = g)
  · rw [s3 g (by omega), s3 (g + 1) (by omega), startOf_succ, Nat.add_sub_cancel_left,
      ← multiplicity_keys_eq elementMap (selectDofMap el L) E L w2 g,
      multiplicity_countKey elementMap (E * L) g hlen]

theorem bucket_content_witness :
    (∀ i, i ∈ (List.range'
          ((SetupIntegratorData [0, 1, 1, 2] (some [1, 0]) 2 3 2).globalToLocalOffsets.getD 1 0)
          ((SetupIntegratorData [0, 1, 1, 2] (some [1, 0]) 2 3 2).globalToLocalOffsets.getD
              (1 + 1) 0
            - (SetupIntegratorData [0, 1, 1, 2] (some [1, 0]) 2 3 2).globalToLocalOffsets.getD
              1 0)).map
          (fun p =>
            (SetupIntegratorData [0, 1, 1, 2] (some [1, 0]) 2 3 2).globalToLocalIndices.getD p 0) ↔
      ∃ e d, e < 2 ∧ d < 2 ∧ i = 2 * e + d ∧
        [0, 1, 1, 2].getD (2 * e + (selectDofMap (some [1, 0]) 2).getD d 0) 0 = 1) ∧
    (SetupIntegratorData [0, 1, 1, 2] (some [1, 0]) 2 3 2).globalToLocalOffsets.getD (1 + 1) 0
        - (SetupIntegratorData [0, 1, 1, 2] (some [1, 0]) 2 3 2).globalToLocalOffsets.getD 1 0
      = [0, 1, 1, 2].count 1 ∧
    (SetupIntegratorData [0, 1, 1, 2] none 2 3 2).globalToLocalOffsets = [0, 1, 3, 4] ∧
    (SetupIntegratorData [0, 1, 1, 2] none 2 3 2).globalToLocalIndices = [0, 1, 2, 3] ∧
    (SetupIntegratorData [0, 1, 1, 2] (some [0, 1]) 2 3 2).globalToLocalOffsets = [0, 1, 3, 4] ∧
    (SetupIntegratorData [0, 1, 1, 2] (some [0, 1]) 2 3 2).globalToLocalIndices
      = [0, 1, 2, 3] :=
  bucket_content [0, 1, 1, 2] (some [1, 0]) 2 3 2 (by decide) (by decide)
    (by intro m hm; cases hm; decide) 1 (by decide)

/-! ## No out-of-range access in the dof map construction -/

theorem logged_foldl {σ ε : Type} (step : σ → Nat → σ) (ev : σ → Nat → ε) (n : Nat) (s0 : σ)
    (log0 : List ε) :
    (List.range n).foldl (fun (st : σ × List ε) i => (step st.1 i, st.2 ++ [ev st.1 i]))
        (s0, log0)
      = ((List.range n).foldl step s0,
          log0 ++ (List.range n).map (fun t => ev ((List.range t).foldl step s0) t)) := by
  induction n with
  | zero => simp
  | succ n ih =>
    rw [List.range_succ, List.foldl_append, ih]
    simp only [List.foldl_cons, List.foldl_nil, List.map_append, List.map_cons, List.map_nil,
      List.foldl_append, List.append_assoc]

theorem countPassLogged_flat (elementMap : List Nat) (E L : Nat)
    (st : List Nat × List CountAccess) :
    countPassLogged elementMap E L st
      = (List.range (E * L)).foldl (fun (st : List Nat × List CountAccess) i =>
          (st.1.set (countKey elementMap i + 1) (st.1.getD (countKey elementMap i + 1) 0 + 1),
            st.2 ++ [{ elementMapIdx := i, offsetsIdx := countKey elementMap i + 1 }])) st := by
  have h := foldl_nested_range (fun (st : List Nat × List CountAccess) e d =>
    (st.1.set (elementMap.getD (L * e + d) 0 + 1)
        (st.1.getD (elementMap.getD (L * e + d) 0 + 1) 0 + 1),
      st.2 ++ [({ elementMapIdx := L * e + d,
                  offsetsIdx := elementMap.getD (L * e + d) 0 + 1 } : CountAccess)])) E L st
  simp only [Nat.div_add_mod] at h
  exact h

theorem fillPassLogged_flat (elementMap dofMap : List Nat) (E L : Nat)
    (st : (List Nat × List Nat) × List FillAccess) :
    fillPassLogged elementMap dofMap E L st
      = (List.range (E * L)).foldl (fun (st : (List Nat × List Nat) × List FillAccess) i =>
          ((st.1.1.set (fillKey elementMap dofMap L i)
                (st.1.1.getD (fillKey elementMap dofMap L i) 0 + 1),
              st.1.2.set (st.1.1.getD (fillKey elementMap dofMap L i) 0) i),
            st.2 ++ [{ dofMapIdx := i % L
                       elementMapIdx := L * (i / L) + dofMap.getD (i % L) 0
                       offsetsIdx := fillKey elementMap dofMap L i
                       indicesIdx := st.1.1.getD (fillKey elementMap dofMap L i) 0 }])) st := by
  have h := foldl_nested_range (fun (st : (List Nat × List Nat) × List FillAccess) e d =>
    ((st.1.1.set (elementMap.getD (L * e + dofMap.getD d 0) 0)
          (st.1.1.getD (elementMap.getD (L * e + dofMap.getD d 0) 0) 0 + 1),
        st.1.2.set (st.1.1.getD (elementMap.getD (L * e + dofMap.getD d 0) 0) 0) (L * e + d)),
      st.2 ++ [({ dofMapIdx := d
                  elementMapIdx := L * e + dofMap.getD d 0
                  offsetsIdx := elementMap.getD (L * e + dofMap.getD d 0) 0
                  indicesIdx := st.1.1.getD (elementMap.getD (L * e + dofMap.getD d 0) 0) 0 } :
                FillAccess)])) E L st
  simp only [Nat.div_add_mod] at h
  exact h

theorem countPassLogged_eq (elementMap : List Nat) (E L : Nat) (offsets : List Nat) :
    countPassLogged elementMap E L (offsets, [])
      = (countPass elementMap E L offsets,
          (List.range (E * L)).map (fun t =>
            ({ elementMapIdx := t, offsetsIdx := countKey elementMap t + 1 } : CountAccess))) := by
  rw [countPassLogged_flat, countPass_flat]
  have h := logged_foldl
    (fun (offs : List Nat) i =>
      offs.set (countKey elementMap i + 1) (offs.getD (countKey elementMap i + 1) 0 + 1))
    (fun (_ : List Nat) i =>
      ({ elementMapIdx := i, offsetsIdx := countKey elementMap i + 1 } : CountAccess))
    (E * L) offsets []
  simp only [List.nil_append] at h
  exact h

theorem fillPassLogged_eq (elementMap dofMap : List Nat) (E L : Nat)
    (st : List Nat × List Nat) :
    fillPassLogged elementMap dofMap E L (st, [])
      = (fillPass elementMap dofMap E L st,
          (List.range (E * L)).map (fun t =>
            ({ dofMapIdx := t % L
               elementMapIdx := L * (t / L) + dofMap.getD (t % L) 0
               offsetsIdx := fillKey elementMap dofMap L t
               indicesIdx := ((List.range t).foldl (fun (st : List Nat × List Nat) i =>
                  (st.1.set (fillKey elementMap dofMap L i)
                      (st.1.getD (fillKey elementMap dofMap L i) 0 + 1),
                    st.2.set (st.1.getD (fillKey elementMap dofMap L i) 0) i)) st).1.getD
                  (fillKey elementMap dofMap L t) 0 } : FillAccess))) := by
  rw [fillPassLogged_flat, fillPass_flat]
  have h := logged_foldl
    (fun (st : List Nat × List Nat) i =>
      (st.1.set (fillKey elementMap dofMap L i)
          (st.1.getD (fillKey elementMap dofMap L i) 0 + 1),
        st.2.set (st.1.getD (fillKey elementMap dofMap L i) 0) i))
    (fun (st : List Nat × List Nat) i =>
      ({ dofMapIdx := i % L
         elementMapIdx := L * (i / L) + dofMap.getD (i % L) 0
         offsetsIdx := fillKey elementMap dofMap L i
         indicesIdx := st.1.getD (fillKey elementMap dofMap L i) 0 } : FillAccess))
    (E * L) st []
  simp only [List.nil_append] at h
  exact h

theorem aggregate_countPass_spec (elementMap : List Nat) (el : Option (List Nat))
    (E N L : Nat) (hconn : ∀ i, i < E * L → countKey elementMap i < N)
    (hperm : (selectDofMap el L).Perm (List.range L)) :
    (aggregate N (countPass elementMap E L (zeroOffsets N))).length = N + 1 ∧
    ∀ g, g ≤ N → (aggregate N (countPass elementMap E L (zeroOffsets N))).getD g 0
      = startOf (fillKey elementMap (selectDofMap el L) L) (E * L) g := by
  obtain ⟨c1, c2, c3⟩ := count_loop (countKey elementMap) N (zeroOffsets N)
    (by simp [zeroOffsets_eq]) (E * L) hconn
  rw [← countPass_flat] at c1 c2 c3
  obtain ⟨a1, a2, _⟩ := aggregate_loop (countKey elementMap) (E * L) N
    (countPass elementMap E L (zeroOffsets N)) c1
    (by rw [c2]; simp [zeroOffsets_eq])
    (by intro g; rw [c3, zeroOffsets_eq]; simp) N (Nat.le_refl _)
  refine ⟨a1, ?_⟩
  intro g hg
  unfold aggregate
  rw [a2 g hg]
  exact countP_keys_eq elementMap (selectDofMap el L) E L hperm (fun k => decide (k < g))

/-- The position written by iteration `t` of the fill pass: the start of the bucket of
its dof plus the number of earlier flat indices filed under the same dof. -/
theorem fill_position (elementMap : List Nat) (el : Option (List Nat)) (E N L : Nat)
    (hconn : ∀ i, i < E * L → countKey elementMap i < N)
    (hperm : (selectDofMap el L).Perm (List.range L)) (t : Nat) (ht : t < E * L) :
    ((List.range t).foldl (fun (st : List Nat × List Nat) i =>
        (st.1.set (fillKey elementMap (selectDofMap el L) L i)
            (st.1.getD (fillKey elementMap (selectDofMap el L) L i) 0 + 1),
          st.2.set (st.1.getD (fillKey elementMap (selectDofMap el L) L i) 0) i))
        (aggregate N (countPass elementMap E L (zeroOffsets N)),
          List.replicate (E * L) 0)).1.getD
        (fillKey elementMap (selectDofMap el L) L t) 0
      = startOf (fillKey elementMap (selectDofMap el L) L) (E * L)
          (fillKey elementMap (selectDofMap el L) L t)
        + multiplicity (fillKey elementMap (selectDofMap el L) L) t
          (fillKey elementMap (selectDofMap el L) L t) := by
  have hkey := fillKey_lt elementMap (selectDofMap el L) E L N hperm hconn
  obtain ⟨a1, a2⟩ := aggregate_countPass_spec elementMap el E N L hconn hperm
  obtain ⟨_, _, f3, _⟩ := fill_loop (fillKey elementMap (selectDofMap el L) L) (E * L) N
    hkey (aggregate N (countPass elementMap E L (zeroOffsets N)))
    (List.replicate (E * L) 0) a1 (by simp) a2 t (Nat.le_of_lt ht) _ rfl
  exact f3 _ (Nat.le_of_lt (hkey t ht))

theorem position_inj (key : Nat → Nat) (n : Nat) (t u : Nat) (ht : t < n) (hu : u < n)
    (h : startOf key n (key t) + multiplicity key t (key t)
      = startOf key n (key u) + multiplicity key u (key u)) : t = u := by
  by_cases hk : key t = key u
  · rcases Nat.lt_trichotomy t u with h1 | h1 | h1
    · have := multiplicity_lt key h1
      rw [hk] at h this
      omega
    · exact h1
    · have := multiplicity_lt key h1
      rw [← hk] at this
      rw [hk] at h
      rw [hk] at this
      omega
  · exact absurd h (slot_ne key n hk (multiplicity_lt key ht) (multiplicity_lt key hu))

theorem dofMap_entry_lt (dofMap : List Nat) (L : Nat) (hperm : dofMap.Perm (List.range L))
    (d : Nat) (hd : d < L) : dofMap.getD d 0 < L := by
  have hlen : dofMap.length = L := by simpa using hperm.length_eq
  rw [List.getD_eq_getElem _ _ (by omega)]
  exact List.mem_range.mp (hperm.subset (List.getElem_mem _))

theorem logged_setup_eq (elementMap : List Nat) (el : Option (List Nat)) (E N L : Nat) :
    (SetupIntegratorDataLogged elementMap el E N L).data = SetupIntegratorData elementMap el E N L ∧
    (SetupIntegratorDataLogged elementMap el E N L).countLog
      = (List.range (E * L)).map (fun t =>
          ({ elementMapIdx := t, offsetsIdx := countKey elementMap t + 1 } : CountAccess)) ∧
    (SetupIntegratorDataLogged elementMap el E N L).fillLog
      = (List.range (E * L)).map (fun t =>
          ({ dofMapIdx := t % L
             elementMapIdx := L * (t / L) + (selectDofMap el L).getD (t % L) 0
             offsetsIdx := fillKey elementMap (selectDofMap el L) L t
             indicesIdx := ((List.range t).foldl (fun (st : List Nat × List Nat) i =>
                (st.1.set (fillKey elementMap (selectDofMap el L) L i)
                    (st.1.getD (fillKey elementMap (selectDofMap el L) L i) 0 + 1),
                  st.2.set (st.1.getD (fillKey elementMap (selectDofMap el L) L i) 0) i))
                (aggregate N (countPass elementMap E L (zeroOffsets N)),
                  List.replicate (E * L) 0)).1.getD
                (fillKey elementMap (selectDofMap el L) L t) 0 } : FillAccess)) := by
  unfold SetupIntegratorDataLogged SetupIntegratorData
  simp only [countPassLogged_eq, fillPassLogged_eq]
  refine ⟨?_, ?_, ?_⟩ <;> trivial

/-- C17: no out-of-range access in the dof map construction under its precondition.
If every connectivity entry lies in `[0, N)` and the local reordering map is a
permutation of `[0, L)`, then, in the run of `SetupIntegratorData` with its accesses
recorded (which computes the same data): every access `offsets[gid + 1]` of the
counting pass has `gid + 1 ≤ N`; every read of `elementMap`, in particular
`elementMap[L * e + perm(d)]` in the fill pass, is below `E * L`; and every write
`indices[offsets[gid]++]` of the fill pass hits a position below `E * L` inside the
range of the bucket of `gid`, each position of `[0, E * L)` being written exactly
once. -/
theorem setup_accesses_in_range (elementMap : List Nat) (el : Option (List Nat)) (E N L : Nat)
    (hlen : elementMap.length = E * L) (hconn : ∀ x ∈ elementMap, x < N)
    (hperm : ∀ m, el = some m → m.Perm (List.range L)) :
    (SetupIntegratorDataLogged elementMap el E N L).data
      = SetupIntegratorData elementMap el E N L ∧
    (SetupIntegratorDataLogged elementMap el E N L).countLog.length = E * L ∧
    (∀ a ∈ (SetupIntegratorDataLogged elementMap el E N L).countLog,
      a.elementMapIdx < E * L ∧ a.offsetsIdx ≤ N) ∧
    (SetupIntegratorDataLogged elementMap el E N L).fillLog.length = E * L ∧
    (∀ a ∈ (SetupIntegratorDataLogged elementMap el E N L).fillLog,
      a.dofMapIdx < L ∧ a.elementMapIdx < E * L ∧ a.offsetsIdx < N ∧ a.indicesIdx < E * L ∧
      (SetupIntegratorData elementMap el E N L).globalToLocalOffsets.getD a.offsetsIdx 0
        ≤ a.indicesIdx ∧
      a.indicesIdx
        < (SetupIntegratorData elementMap el E N L).globalToLocalOffsets.getD
            (a.offsetsIdx + 1) 0) ∧
    ((SetupIntegratorDataLogged elementMap el E N L).fillLog.map
      (fun a => a.indicesIdx)).Nodup ∧
    ((SetupIntegratorDataLogged elementMap el E N L).fillLog.map
      (fun a => a.indicesIdx)).Perm (List.range (E * L)) := by
  obtain ⟨w1, w2⟩ := wellformed_inputs elementMap el E N L hlen hconn hperm
  obtain ⟨_, _, s3, _⟩ := setup_spec elementMap el E N L w1 w2
  have hkey := fillKey_lt elementMap (selectDofMap el L) E L N w2 w1
  obtain ⟨l1, l2, l3⟩ := logged_setup_eq elementMap el E N L
  have hpos := fill_position elementMap el E N L w1 w2
  have hfill : ∀ a ∈ (SetupIntegratorDataLogged elementMap el E N L).fillLog,
      a.dofMapIdx < L ∧ a.elementMapIdx < E * L ∧ a.offsetsIdx < N ∧ a.indicesIdx < E * L ∧
      (SetupIntegratorData elementMap el E N L).globalToLocalOffsets.getD a.offsetsIdx 0
        ≤ a.indicesIdx ∧
      a.indicesIdx
        < (SetupIntegratorData elementMap el E N L).globalToLocalOffsets.getD
            (a.offsetsIdx + 1) 0 := by
    intro a ha
    rw [l3] at ha
    obtain ⟨t, ht, rfl⟩ := List.mem_map.mp ha
    have ht : t < E * L := List.mem_range.mp ht
    have hL : 0 < L := by
      rcases Nat.eq_zero_or_pos L with h | h
      · subst h; simp at ht
      · exact h
    have hd : t % L < L := Nat.mod_lt _ hL
    have he : t / L < E := Nat.div_lt_of_lt_mul (by rw [Nat.mul_comm]; exact ht)
    have hdm := dofMap_entry_lt (selectDofMap el L) L w2 (t % L) hd
    have hm := multiplicity_lt (fillKey elementMap (selectDofMap el L) L) ht
    simp only
    rw [hpos t ht, s3 _ (Nat.le_of_lt (hkey t ht)), s3 _ (hkey t ht), startOf_succ]
    refine ⟨hd, ?_, hkey t ht, slot_lt _ _ N hkey (hkey t ht) hm, Nat.le_add_right _ _, by omega⟩
    calc L * (t / L) + (selectDofMap el L).getD (t % L) 0 < L * (t / L) + L := by omega
      _ = L * (t / L + 1) := by rw [Nat.mul_succ]
      _ ≤ L * E := Nat.mul_le_mul_left _ he
      _ = E * L := Nat.mul_comm _ _
  have hmap : (SetupIntegratorDataLogged elementMap el E N L).fillLog.map
        (fun a => a.indicesIdx)
      = (List.range (E * L)).map (fun t =>
          startOf (fillKey elementMap (selectDofMap el L) L) (E * L)
              (fillKey elementMap (selectDofMap el L) L t)
            + multiplicity (fillKey elementMap (selectDofMap el L) L) t
              (fillKey elementMap (selectDofMap el L) L t)) := by
    rw [l3, List.map_map]
    apply List.map_congr_left
    intro t ht
    exact hpos t (List.mem_range.mp ht)
  have hnd : ((SetupIntegratorDataLogged elementMap el E N L).fillLog.map
      (fun a => a.indicesIdx)).Nodup := by
    rw [hmap]
    apply List.Nodup.map_on _ (List.nodup_range _)
    intro t ht u hu h
    exact position_inj _ (E * L) t u (List.mem_range.mp ht) (List.mem_range.mp hu) h
  refine ⟨l1, by rw [l2]; simp, ?_, by rw [l3]; simp, hfill, hnd, ?_⟩
  · intro a ha
    rw [l2] at ha
    obtain ⟨t, ht, rfl⟩ := List.mem_map.mp ha
    have ht : t < E * L := List.mem_range.mp ht
    exact ⟨ht, Nat.succ_le_of_lt (w1 t ht)⟩
  · apply (List.subperm_of_subset hnd _).perm_of_length_le (by rw [l3]; simp)
    intro p hp
    obtain ⟨a, ha, rfl⟩ := List.mem_map.mp hp
    exact List.mem_range.mpr (hfill a ha).2.2.2.1

theorem setup_accesses_in_range_witness :
    (SetupIntegratorDataLogged [0, 1, 1, 2] (some [1, 0]) 2 3 2).data
      = SetupIntegratorData [0, 1, 1, 2] (some [1, 0]) 2 3 2 ∧
    (SetupIntegratorDataLogged [0, 1, 1, 2] (some [1, 0]) 2 3 2).countLog.length = 2 * 2 ∧
    (∀ a ∈ (SetupIntegratorDataLogged [0, 1, 1, 2] (some [1, 0]) 2 3 2).countLog,
      a.elementMapIdx < 2 * 2 ∧ a.offsetsIdx ≤ 3) ∧
    (SetupIntegratorDataLogged [0, 1, 1, 2] (some [1, 0]) 2 3 2).fillLog.length = 2 * 2 ∧
    (∀ a ∈ (SetupIntegratorDataLogged [0, 1, 1, 2] (some [1, 0]) 2 3 2).fillLog,
      a.dofMapIdx < 2 ∧ a.elementMapIdx < 2 * 2 ∧ a.offsetsIdx < 3 ∧ a.indicesIdx < 2 * 2 ∧
      (SetupIntegratorData [0, 1, 1, 2] (some [1, 0]) 2 3 2).globalToLocalOffsets.getD
          a.offsetsIdx 0
        ≤ a.indicesIdx ∧
      a.indicesIdx
        < (SetupIntegratorData [0, 1, 1, 2] (some [1, 0]) 2 3 2).globalToLocalOffsets.getD
            (a.offsetsIdx + 1) 0) ∧
    ((SetupIntegratorDataLogged [0, 1, 1, 2] (some [1, 0]) 2 3 2).fillLog.map
      (fun a => a.indicesIdx)).Nodup ∧
    ((SetupIntegratorDataLogged [0, 1, 1, 2] (some [1, 0]) 2 3 2).fillLog.map
      (fun a => a.indicesIdx)).Perm (List.range (2 * 2)) :=
  setup_accesses_in_range [0, 1, 1, 2] (some [1, 0]) 2 3 2 (by decide) (by decide)
    (by intro m hm; cases hm; decide)

/-! ## Symmetry of the constrained operator -/

theorem zeroAtConstraints_nil (x : List Int) : zeroAtConstraints [] x = x := by
  apply ext_getD _ _ (length_zeroAtConstraints _ _)
  intro i _
  rw [getD_zeroAtConstraints]
  simp

/-- The output of the constrained `Mult` for any constraint list, empty or not. -/
theorem mult_y (A : Operator) (cl : List Nat) (x : List Int) :
    ((OccaConstrainedOperator.setup A cl).Mult x).y
      = map_dofs cl.length (A.Mult (zeroAtConstraints cl x)) x cl := by
  by_cases hne : cl = []
  · subst hne
    rw [mult_empty, zeroAtConstraints_nil]
    rfl
  · exact mult_nonempty A cl x hne

theorem mult_y_getD (A : Operator) (cl : List Nat) (x : List Int)
    (hA : ∀ u : List Int, u.length = A.height → (A.Mult u).length = A.height)
    (hx : x.length = A.height) :
    ((OccaConstrainedOperator.setup A cl).Mult x).y.length = A.height ∧
    ∀ i, i < A.height → ((OccaConstrainedOperator.setup A cl).Mult x).y.getD i 0
      = if i ∈ cl then x.getD i 0 else (A.Mult (zeroAtConstraints cl x)).getD i 0 := by
  rw [mult_y]
  obtain ⟨m1, m2⟩ := map_dofs_spec (A.Mult (zeroAtConstraints cl x)) x cl
  have hlen : (A.Mult (zeroAtConstraints cl x)).length = A.height :=
    hA _ (by rw [length_zeroAtConstraints, hx])
  refine ⟨by rw [m1, hlen], ?_⟩
  intro i hi
  rw [m2, hlen]
  by_cases hc : i ∈ cl
  · rw [if_pos ⟨hc, hi⟩, if_pos hc]
  · rw [if_neg (fun h => hc h.1), if_neg hc]

theorem getD_vecScale (c : Int) (u : List Int) (i : Nat) :
    (vecScale c u).getD i 0 = c * u.getD i 0 := by
  unfold vecScale
  by_cases h : i < u.length
  · rw [List.getD_eq_getElem _ _ (by simpa using h), List.getD_eq_getElem _ _ h]
    simp
  · have h2 : u.length ≤ i := by omega
    simp [List.getElem?_eq_none, h2]

theorem length_vecScale (c : Int) (u : List Int) : (vecScale c u).length = u.length := by
  simp [vecScale]

theorem zeroAtConstraints_add (cl : List Nat) (n : Nat) (u v : List Int) (hu : u.length = n)
    (hv : v.length = n) :
    zeroAtConstraints cl (vecAdd u v)
      = vecAdd (zeroAtConstraints cl u) (zeroAtConstraints cl v) := by
  have h1 : (vecAdd u v).length = n := length_vecAdd u v n hu hv
  have h2 : (vecAdd (zeroAtConstraints cl u) (zeroAtConstraints cl v)).length = n :=
    length_vecAdd _ _ n (by rw [length_zeroAtConstraints, hu])
      (by rw [length_zeroAtConstraints, hv])
  apply ext_getD _ _ (by rw [length_zeroAtConstraints, h1, h2])
  intro i hi
  rw [length_zeroAtConstraints, h1] at hi
  rw [getD_zeroAtConstraints cl (vecAdd u v),
    getD_vecAdd (zeroAtConstraints cl u) (zeroAtConstraints cl v) i
      (by rw [length_zeroAtConstraints, hu]; exact hi)
      (by rw [length_zeroAtConstraints, hv]; exact hi),
    getD_zeroAtConstraints cl u, getD_zeroAtConstraints cl v]
  by_cases hc : i ∈ cl
  · simp [hc]
  · rw [if_neg hc, if_neg hc, if_neg hc, getD_vecAdd u v i (by omega) (by omega)]

theorem zeroAtConstraints_scale (cl : List Nat) (c : Int) (u : List Int) :
    zeroAtConstraints cl (vecScale c u) = vecScale c (zeroAtConstraints cl u) := by
  apply ext_getD _ _ (by
    rw [length_zeroAtConstraints, length_vecScale, length_vecScale, length_zeroAtConstraints])
  intro i _
  rw [getD_zeroAtConstraints, getD_vecScale, getD_vecScale, getD_zeroAtConstraints]
  by_cases hc : i ∈ cl
  · simp [hc]
  · rw [if_neg hc, if_neg hc]

theorem dot_eq (u v : List Int) (n : Nat) (hu : u.length = n) :
    dot u v = ((List.range n).map (fun i => u.getD i 0 * v.getD i 0)).sum := by
  subst hu
  rfl

theorem sum_range_congr (n : Nat) (f g : Nat → Int) (h : ∀ i, i < n → f i = g i) :
    ((List.range n).map f).sum = ((List.range n).map g).sum := by
  congr 1
  apply List.map_congr_left
  intro i hi
  exact h i (List.mem_range.mp hi)

theorem eliminated_add (A : Operator) (cl : List Nat)
    (hA : ∀ u : List Int, u.length = A.height → (A.Mult u).length = A.height)
    (hadd : ∀ u v : List Int, u.length = A.height → v.length = A.height →
      A.Mult (vecAdd u v) = vecAdd (A.Mult u) (A.Mult v))
    (u v yu yv yuv : List Int) (hu : u.length = A.height) (hv : v.length = A.height)
    (lu : yu.length = A.height) (lv : yv.length = A.height) (luv : yuv.length = A.height)
    (gu : ∀ i, i < A.height → yu.getD i 0
      = if i ∈ cl then u.getD i 0 else (A.Mult (zeroAtConstraints cl u)).getD i 0)
    (gv : ∀ i, i < A.height → yv.getD i 0
      = if i ∈ cl then v.getD i 0 else (A.Mult (zeroAtConstraints cl v)).getD i 0)
    (guv : ∀ i, i < A.height → yuv.getD i 0
      = if i ∈ cl then (vecAdd u v).getD i 0
        else (A.Mult (zeroAtConstraints cl (vecAdd u v))).getD i 0) :
    yuv = vecAdd yu yv := by
  have hzu : (zeroAtConstraints cl u).length = A.height := by
    rw [length_zeroAtConstraints, hu]
  have hzv : (zeroAtConstraints cl v).length = A.height := by
    rw [length_zeroAtConstraints, hv]
  have hAzu := hA _ hzu
  have hAzv := hA _ hzv
  apply ext_getD _ _ (by rw [luv, length_vecAdd _ _ _ lu lv])
  intro i hi
  rw [luv] at hi
  rw [guv i hi, getD_vecAdd yu yv i (by omega) (by omega), gu i hi, gv i hi,
    zeroAtConstraints_add cl _ u v hu hv, hadd _ _ hzu hzv]
  by_cases hc : i ∈ cl
  · rw [if_pos hc, if_pos hc, if_pos hc, getD_vecAdd u v i (by omega) (by omega)]
  · rw [if_neg hc, if_neg hc, if_neg hc,
      getD_vecAdd (A.Mult (zeroAtConstraints cl u)) (A.Mult (zeroAtConstraints cl v)) i
        (by omega) (by omega)]

theorem eliminated_scale (A : Operator) (cl : List Nat)
    (hsmul : ∀ (c : Int) (u : List Int), u.length = A.height →
      A.Mult (vecScale c u) = vecScale c (A.Mult u))
    (c : Int) (u yu ycu : List Int) (hu : u.length = A.height)
    (lu : yu.length = A.height) (lcu : ycu.length = A.height)
    (gu : ∀ i, i < A.height → yu.getD i 0
      = if i ∈ cl then u.getD i 0 else (A.Mult (zeroAtConstraints cl u)).getD i 0)
    (gcu : ∀ i, i < A.height → ycu.getD i 0
      = if i ∈ cl then (vecScale c u).getD i 0
        else (A.Mult (zeroAtConstraints cl (vecScale c u))).getD i 0) :
    ycu = vecScale c yu := by
  have hzu : (zeroAtConstraints cl u).length = A.height := by
    rw [length_zeroAtConstraints, hu]
  apply ext_getD _ _ (by rw [lcu, length_vecScale, lu])
  intro i hi
  rw [lcu] at hi
  rw [gcu i hi, getD_vecScale c yu i, gu i hi, zeroAtConstraints_scale, hsmul _ _ hzu]
  by_cases hc : i ∈ cl
  · rw [if_pos hc, if_pos hc, getD_vecScale]
  · rw [if_neg hc, if_neg hc, getD_vecScale]

theorem eliminated_dot (A : Operator) (cl : List Nat)
    (hA : ∀ u : List Int, u.length = A.height → (A.Mult u).length = A.height)
    (hsym : ∀ u v : List Int, u.length = A.height → v.length = A.height →
      dot (A.Mult u) v = dot u (A.Mult v))
    (u v yu yv : List Int) (hu : u.length = A.height) (hv : v.length = A.height)
    (lu : yu.length = A.height)
    (gu : ∀ i, i < A.height → yu.getD i 0
      = if i ∈ cl then u.getD i 0 else (A.Mult (zeroAtConstraints cl u)).getD i 0)
    (gv : ∀ i, i < A.height → yv.getD i 0
      = if i ∈ cl then v.getD i 0 else (A.Mult (zeroAtConstraints cl v)).getD i 0) :
    dot yu v = dot u yv := by
  have hzu : (zeroAtConstraints cl u).length = A.height := by
    rw [length_zeroAtConstraints, hu]
  have hzv : (zeroAtConstraints cl v).length = A.height := by
    rw [length_zeroAtConstraints, hv]
  have hAzu := hA _ hzu
  have hs := hsym _ _ hzu hzv
  rw [dot_eq _ _ _ hAzu, dot_eq _ _ _ hzu] at hs
  rw [dot_eq _ _ _ lu, dot_eq _ _ _ hu]
  have e1 : ((List.range A.height).map (fun i => yu.getD i 0 * v.getD i 0)).sum
      = ((List.range A.height).map (fun i =>
          (if i ∈ cl then u.getD i 0 * v.getD i 0 else 0)
            + (A.Mult (zeroAtConstraints cl u)).getD i 0
              * (zeroAtConstraints cl v).getD i 0)).sum := by
    apply sum_range_congr
    intro i hi
    rw [gu i hi, getD_zeroAtConstraints]
    by_cases hc : i ∈ cl
    · rw [if_pos hc, if_pos hc, if_pos hc, Int.mul_zero, Int.add_zero]
    · rw [if_neg hc, if_neg hc, if_neg hc, Int.zero_add]
  have e2 : ((List.range A.height).map (fun i => u.getD i 0 * yv.getD i 0)).sum
      = ((List.range A.height).map (fun i =>
          (if i ∈ cl then u.getD i 0 * v.getD i 0 else 0)
            + (zeroAtConstraints cl u).getD i 0
              * (A.Mult (zeroAtConstraints cl v)).getD i 0)).sum := by
    apply sum_range_congr
    intro i hi
    rw [gv i hi, getD_zeroAtConstraints]
    by_cases hc : i ∈ cl
    · rw [if_pos hc, if_pos hc, if_pos hc, Int.zero_mul, Int.add_zero]
    · rw [if_neg hc, if_neg hc, if_neg hc, Int.zero_add]
  rw [e1, e2, List.sum_map_add, List.sum_map_add, hs]

/-- C18: symmetry is preserved by constraint elimination.  If the inner operator `A`
is a linear map on vectors of its height `n`, returns vectors of that height and is
self-adjoint for the standard dot product, then for every constraint list (in
particular every list with indices in `[0, n)`) the operator `x ↦ Mult(x)` of the
constrained operator is additive, homogeneous and self-adjoint for the same dot
product on vectors of length `n`. -/
theorem constrained_mult_symmetric (A : Operator) (cl : List Nat)
    (hA : ∀ u : List Int, u.length = A.height → (A.Mult u).length = A.height)
    (hadd : ∀ u v : List Int, u.length = A.height → v.length = A.height →
      A.Mult (vecAdd u v) = vecAdd (A.Mult u) (A.Mult v))
    (hsmul : ∀ (c : Int) (u : List Int), u.length = A.height →
      A.Mult (vecScale c u) = vecScale c (A.Mult u))
    (hsym : ∀ u v : List Int, u.length = A.height → v.length = A.height →
      dot (A.Mult u) v = dot u (A.Mult v))
    (u v : List Int) (c : Int) (hu : u.length = A.height) (hv : v.length = A.height) :
    ((OccaConstrainedOperator.setup A cl).Mult (vecAdd u v)).y
      = vecAdd ((OccaConstrainedOperator.setup A cl).Mult u).y
          ((OccaConstrainedOperator.setup A cl).Mult v).y ∧
    ((OccaConstrainedOperator.setup A cl).Mult (vecScale c u)).y
      = vecScale c ((OccaConstrainedOperator.setup A cl).Mult u).y ∧
    dot ((OccaConstrainedOperator.setup A cl).Mult u).y v
      = dot u ((OccaConstrainedOperator.setup A cl).Mult v).y := by
  obtain ⟨lu, gu⟩ := mult_y_getD A cl u hA hu
  obtain ⟨lv, gv⟩ := mult_y_getD A cl v hA hv
  have huv : (vecAdd u v).length = A.height := length_vecAdd u v _ hu hv
  have hcu : (vecScale c u).length = A.height := by rw [length_vecScale, hu]
  obtain ⟨luv, guv⟩ := mult_y_getD A cl (vecAdd u v) hA huv
  obtain ⟨lcu, gcu⟩ := mult_y_getD A cl (vecScale c u) hA hcu
  exact ⟨eliminated_add A cl hA hadd u v _ _ _ hu hv lu lv luv gu gv guv,
    eliminated_scale A cl hsmul c u _ _ hu lu lcu gu gcu,
    eliminated_dot A cl hA hsym u v _ _ hu hv lu gu gv⟩

theorem constrained_mult_symmetric_witness :
    ((OccaConstrainedOperator.setup
        { height := 2, width := 2, Mult := fun u => u, MultTranspose := fun u => u }
        [0]).Mult (vecAdd [1, 2] [3, 4])).y
      = vecAdd ((OccaConstrainedOperator.setup
          { height := 2, width := 2, Mult := fun u => u, MultTranspose := fun u => u }
          [0]).Mult [1, 2]).y
          ((OccaConstrainedOperator.setup
          { height := 2, width := 2, Mult := fun u => u, MultTranspose := fun u => u }
          [0]).Mult [3, 4]).y ∧
    ((OccaConstrainedOperator.setup
        { height := 2, width := 2, Mult := fun u => u, MultTranspose := fun u => u }
        [0]).Mult (vecScale 5 [1, 2])).y
      = vecScale 5 ((OccaConstrainedOperator.setup
          { height := 2, width := 2, Mult := fun u => u, MultTranspose := fun u => u }
          [0]).Mult [1, 2]).y ∧
    dot ((OccaConstrainedOperator.setup
        { height := 2, width := 2, Mult := fun u => u, MultTranspose := fun u => u }
        [0]).Mult [1, 2]).y [3, 4]
      = dot [1, 2] ((OccaConstrainedOperator.setup
          { height := 2, width := 2, Mult := fun u => u, MultTranspose := fun u => u }
          [0]).Mult [3, 4]).y :=
  constrained_mult_symmetric
    { height := 2, width := 2, Mult := fun u => u, MultTranspose := fun u => u } [0]
    (by intro u hu; exact hu) (by intro u v _ _; rfl) (by intro c u _; rfl)
    (by intro u v _ _; rfl) [1, 2] [3, 4] 5 (by decide) (by decide)

end mfem
